import Mathlib

/-!
Verification of the compound-manager core (src/src/core.js).

The embedding is shallow: the per-instance engine state (collapsedIds,
hiddenElementsMap, savedPositionsMap, projectionEdgesMap, hiddenIds) together
with the graph itself (nodes with positions, edges) is one explicit record
`CMState`, and every operation of core.js becomes a pure function on it.

Modelling decisions, each matching the source or the cytoscape graph store the
source calls into:
- element ids are `String`; positions and box dimensions are `Rat` (the source
  uses JS floats, but no claim here depends on rounding, only on the exact
  arithmetic structure of the position bookkeeping);
- `node.descendants()` / `node.ancestors()` of the graph store are modelled
  from the parent back-references: the ancestor chain follows `parent` ids with
  fuel `nodes.length`, and the descendants of `p` are the nodes whose ancestor
  chain contains `p`;
- JS `Set` is a duplicate-free `List` kept in insertion order, JS `Map` is an
  association list; the engine maps are only read with `lookup`/`delete`, never
  iterated, so `mapSet` may reposition an updated key;
- `ele.data('_hidden')` and `state.hiddenIds` are written and cleared strictly
  together in the source, so the single set `hiddenIds` represents both;
- `child.animate({position})` eventually lands on the same final position as
  `child.position(newPos)`, so both branches of restoreLocalPositions are the
  immediate position write;
- `cy.emit(...)` appends the event name to an `events` log.
-/

structure Node where
  id : String
  parent : Option String
  x : Rat
  y : Rat
  w : Rat
  h : Rat
deriving DecidableEq, Repr

structure Edge where
  id : String
  source : String
  target : String
  isProjection : Bool
deriving DecidableEq, Repr

/-- The per-instance engine state of core.js (getState) plus the graph it is
attached to. -/
structure CMState where
  nodes : List Node
  edges : List Edge
  collapsedIds : List String
  hiddenElementsMap : List (String × List String)
  savedPositionsMap : List (String × List (String × (Rat × Rat)))
  projectionEdgesMap : List (String × (List String × List String))
  hiddenIds : List String
  events : List String
deriving DecidableEq, Repr

/-- JS `Set.add`: append unless already present. -/
def setAdd (l : List String) (x : String) : List String :=
  if x ∈ l then l else l ++ [x]

/-- JS `Set.delete`. -/
def setDel (l : List String) (x : String) : List String :=
  l.filter (fun y => decide (y ≠ x))

/-- JS `Map.set` on an association list (the engine maps are never iterated,
so the position of the key does not matter). -/
def mapSet {α : Type} (m : List (String × α)) (k : String) (v : α) : List (String × α) :=
  (m.filter (fun p => decide (p.1 ≠ k))) ++ [(k, v)]

/-- JS `Map.delete` on an association list. -/
def mapDel {α : Type} (m : List (String × α)) (k : String) : List (String × α) :=
  m.filter (fun p => decide (p.1 ≠ k))

/-- Graph-store lookup `cy.$id(...)` restricted to nodes. -/
def getNode (nodes : List Node) (i : String) : Option Node :=
  nodes.find? (fun n => decide (n.id = i))

/-- Current position of a node (nodes the source reads positions of always
exist; the default is never hit on well-formed graphs). -/
def posOf (nodes : List Node) (i : String) : Rat × Rat :=
  match getNode nodes i with
  | some n => (n.x, n.y)
  | none => (0, 0)

/-- Graph-store `node.children()`: direct children, in element order. -/
def childrenOf (nodes : List Node) (pid : String) : List Node :=
  nodes.filter (fun n => decide (n.parent = some pid))

/-- Graph-store `node.isParent()`: the node has at least one child. -/
def isParentNode (nodes : List Node) (pid : String) : Bool :=
  nodes.any (fun n => decide (n.parent = some pid))

/-- Graph-store `node.ancestors()` as the chain of parent ids, fuelled by the
node count (long enough on any acyclic graph). -/
def ancestorChain (nodes : List Node) : Nat → String → List String
  | 0, _ => []
  | fuel + 1, i =>
    match getNode nodes i with
    | some n =>
      match n.parent with
      | some p => p :: ancestorChain nodes fuel p
      | none => []
    | none => []

/-- Graph-store `node.descendants()`: ids of all nodes below `pid`, in element
order. -/
def descendantIds (nodes : List Node) (pid : String) : List String :=
  (nodes.filter (fun n => decide (pid ∈ ancestorChain nodes nodes.length n.id))).map
    (fun n => n.id)

/-- hideElement of core.js: record the element id in the hidden set. -/
def hideElement (s : CMState) (i : String) : CMState :=
  { s with hiddenIds := setAdd s.hiddenIds i }

/-- showElement of core.js: remove the element id from the hidden set. -/
def showElement (s : CMState) (i : String) : CMState :=
  { s with hiddenIds := setDel s.hiddenIds i }

/-- isHiddenEle of core.js. -/
def isHiddenEle (s : CMState) (i : String) : Bool :=
  decide (i ∈ s.hiddenIds)

/-- cy.emit: append the event name to the log. -/
def emitEvent (s : CMState) (e : String) : CMState :=
  { s with events := s.events ++ [e] }

/-- Hiding every element of a list in order (the forEach loops of collapse). -/
def hideIds (s : CMState) (l : List String) : CMState :=
  l.foldl hideElement s

/-- Edges incident to the node `i` (`node.connectedEdges()`). -/
def connectedEdges (edges : List Edge) (i : String) : List Edge :=
  edges.filter (fun e => decide (e.source = i ∨ e.target = i))

/-- saveLocalPositions of core.js: store, keyed by the parent, each
descendant's offset from the parent's current position. -/
def saveLocalPositions (s : CMState) (parentId : String) (descIds : List String) : CMState :=
  let pp := posOf s.nodes parentId
  let positions := descIds.map (fun d =>
    (d, ((posOf s.nodes d).1 - pp.1, (posOf s.nodes d).2 - pp.2)))
  { s with savedPositionsMap := mapSet s.savedPositionsMap parentId positions }

/-- Write a node's position (`node.position(newPos)`). -/
def setNodePos (s : CMState) (i : String) (p : Rat × Rat) : CMState :=
  { s with nodes := s.nodes.map (fun n =>
      if n.id = i then { n with x := p.1, y := p.2 } else n) }

/-- One step of the restore loop: a direct child with a saved offset moves to
parent position + offset, the others stay. -/
def restoreStep (positions : List (String × (Rat × Rat))) (pp : Rat × Rat)
    (t : CMState) (child : Node) : CMState :=
  match List.lookup child.id positions with
  | some lp => setNodePos t child.id (pp.1 + lp.1, pp.2 + lp.2)
  | none => t

/-- restoreLocalPositions of core.js: every direct child with a saved offset is
moved to parent position + offset; the record is then consumed. -/
def restoreLocalPositions (s : CMState) (parentId : String) : CMState :=
  match List.lookup parentId s.savedPositionsMap with
  | none => s
  | some positions =>
    let pp := posOf s.nodes parentId
    let s1 := (childrenOf s.nodes parentId).foldl (restoreStep positions pp) s
    { s1 with savedPositionsMap := mapDel s1.savedPositionsMap parentId }

/-- One step of the edge classification loop in createProjections: skip seen
edges, then sort by endpoint membership in the collapsing set. -/
def classifyStep (inSet : List String) (acc : List String × List Edge × List Edge)
    (e : Edge) : List String × List Edge × List Edge :=
  if e.id ∈ acc.1 then acc
  else
    let seen := acc.1 ++ [e.id]
    let sIn := decide (e.source ∈ inSet)
    let tIn := decide (e.target ∈ inSet)
    if sIn && tIn then (seen, acc.2.1 ++ [e], acc.2.2)
    else if sIn != tIn then (seen, acc.2.1, acc.2.2 ++ [e])
    else (seen, acc.2.1, acc.2.2)

/-- The full classification double loop of createProjections: for each
descendant, classify its connected edges, deduplicated by edge id. Returns
(seen ids, internal edges, external edges). -/
def classifyEdges (edges : List Edge) (inSet : List String) (descIds : List String) :
    List String × List Edge × List Edge :=
  descIds.foldl (fun acc d => (connectedEdges edges d).foldl (classifyStep inSet) acc)
    ([], [], [])

/-- Append an edge to its group (JS `Map` keyed by direction and external id,
keeping first-insertion order). -/
def addToGroup (gs : List (String × List Edge)) (k : String) (e : Edge) :
    List (String × List Edge) :=
  if gs.any (fun g => decide (g.1 = k)) then
    gs.map (fun g => if g.1 = k then (g.1, g.2 ++ [e]) else g)
  else gs ++ [(k, [e])]

def emptyStr : String := ""
def outKeyHead : String := "out"
def inKeyHead : String := "in"
def colonStr : String := ":"
def projIdHead : String := "_proj_"
def underscoreStr : String := "_"
def collapseEv : String := "compoundmanager.collapse"
def expandEv : String := "compoundmanager.expand"
def layoutResetEv : String := "compoundmanager.layoutResetRequired"

/-- The grouping loop of createProjections: external edges are grouped by the
string key direction ++ colon ++ external node id. -/
def groupExternal (inSet : List String) (externalEdges : List Edge) :
    List (String × List Edge) :=
  externalEdges.foldl (fun gs e =>
    let sIn := decide (e.source ∈ inSet)
    let tIn := decide (e.target ∈ inSet)
    if sIn && !tIn then addToGroup gs (outKeyHead ++ colonStr ++ e.target) e
    else if !sIn && tIn then addToGroup gs (inKeyHead ++ colonStr ++ e.source) e
    else gs) []

/-- Character-level split, equivalent to both JS `key.split(':')` and Lean's
`String.splitOn ":"`: cut the character list at every separator. (Stated over
`List Char` so that it evaluates by structural recursion.) -/
def splitCharsOn (sep : Char) : List Char → List Char → List String
  | [], acc => [⟨acc.reverse⟩]
  | c :: rest, acc =>
    if c = sep then ⟨acc.reverse⟩ :: splitCharsOn sep rest []
    else splitCharsOn sep rest (c :: acc)

/-- JS `key.split(':')`. -/
def splitColon (s : String) : List String :=
  splitCharsOn (Char.ofNat 58) s.data []

/-- The projection-creation loop of createProjections: one synthetic edge per
group; the key is re-split on the colon exactly as `key.split(':')` with array
destructuring does, taking the first two fragments. -/
def buildProjections (parentId : String) (groups : List (String × List Edge)) :
    List Edge × List String :=
  let r := groups.foldl (fun (acc : List Edge × List String × Nat) g =>
    let parts := splitColon g.1
    let direction := parts.getD 0 emptyStr
    let externalId := parts.getD 1 emptyStr
    let projId := projIdHead ++ parentId ++ underscoreStr ++ toString acc.2.2
    let src := if direction = outKeyHead then parentId else externalId
    let tgt := if direction = outKeyHead then externalId else parentId
    (acc.1 ++ [⟨projId, src, tgt, true⟩], acc.2.1 ++ [projId], acc.2.2 + 1))
    ([], [], 0)
  (r.1, r.2.1)

/-- createProjections of core.js: classify edges around the descendants, hide
the internal ones, aggregate the external ones per (direction, external node)
key, add one synthetic projection edge per group (`cy.add` appends it to the
graph), and record projection ids together with the replaced original ids. -/
def createProjections (s : CMState) (parentId : String) (descIds : List String) : CMState :=
  let inSet := descIds ++ [parentId]
  let cls := classifyEdges s.edges inSet descIds
  let internalEdges := cls.2.1
  let externalEdges := cls.2.2
  let s1 := hideIds s (internalEdges.map (fun e => e.id))
  let groups := groupExternal inSet externalEdges
  let built := buildProjections parentId groups
  { s1 with
    edges := s1.edges ++ built.1,
    projectionEdgesMap := mapSet s1.projectionEdgesMap parentId
      (built.2, externalEdges.map (fun e => e.id)) }

/-- removeProjections of core.js: delete this parent's projection edges from
the graph and clear the record. -/
def removeProjections (s : CMState) (parentId : String) : CMState :=
  match List.lookup parentId s.projectionEdgesMap with
  | none => s
  | some pr =>
    { s with
      edges := s.edges.filter (fun e => decide (e.id ∉ pr.1)),
      projectionEdgesMap := mapDel s.projectionEdgesMap parentId }

/-- Ids of the edges incident to at least one of the given nodes
(`descendants.connectedEdges()` in collapse). -/
def touchingEdgeIds (edges : List Edge) (descIds : List String) : List String :=
  (edges.filter (fun e =>
    decide (e.source ∈ descIds) || decide (e.target ∈ descIds))).map (fun e => e.id)

/-- The body of a successful collapse: save positions, hide the descendants,
hide every edge incident to a descendant, record the hidden descendant ids,
build the projections, mark the node collapsed, emit the event. -/
def collapseBody (s : CMState) (nodeId : String) : CMState :=
  let descIds := descendantIds s.nodes nodeId
  let s1 := saveLocalPositions s nodeId descIds
  let s2 := hideIds s1 descIds
  let s3 := hideIds s2 (touchingEdgeIds s2.edges descIds)
  let s4 := { s3 with hiddenElementsMap := mapSet s3.hiddenElementsMap nodeId descIds }
  let s5 := createProjections s4 nodeId descIds
  let s6 := { s5 with collapsedIds := setAdd s5.collapsedIds nodeId }
  emitEvent s6 collapseEv

/-- collapse of core.js. Returns the new state and the boolean success flag. -/
def collapse (s : CMState) (nodeId : String) : CMState × Bool :=
  if !(isParentNode s.nodes nodeId) then (s, false)
  else if nodeId ∈ s.collapsedIds then (s, false)
  else (collapseBody s nodeId, true)

/-- One iteration of expand's show loop: un-hide a previously hidden
descendant unless its direct parent is itself still collapsed, then un-hide
its incident edges whose two endpoints are visible and that are not
projections. -/
def showStep (nodeId : String) (t : CMState) (d : String) : CMState :=
  match getNode t.nodes d with
  | none => t
  | some n =>
    let ok := match n.parent with
      | none => true
      | some p => decide (p = nodeId) || !(decide (p ∈ t.collapsedIds))
    if ok then
      let t1 := showElement t d
      (connectedEdges t1.edges d).foldl (fun u e =>
        if !(isHiddenEle u e.source) && !(isHiddenEle u e.target) && !e.isProjection
        then showElement u e.id else u) t1
    else t

/-- The body of a successful expand: run the show loop over the recorded
hidden descendants, remove this node's projections, restore local positions,
clear the collapsed mark and the record, emit the event. -/
def expandBody (s : CMState) (nodeId : String) : CMState :=
  let descIds := (List.lookup nodeId s.hiddenElementsMap).getD []
  let s1 := descIds.foldl (showStep nodeId) s
  let s2 := removeProjections s1 nodeId
  let s3 := restoreLocalPositions s2 nodeId
  let s4 := { s3 with
    collapsedIds := setDel s3.collapsedIds nodeId,
    hiddenElementsMap := mapDel s3.hiddenElementsMap nodeId }
  emitEvent s4 expandEv

/-- expand of core.js. Returns the new state and the boolean success flag. -/
def expand (s : CMState) (nodeId : String) : CMState × Bool :=
  if !(decide (nodeId ∈ s.collapsedIds)) then (s, false)
  else (expandBody s nodeId, true)

/-- isCollapsedNode of core.js. -/
def isCollapsedNode (s : CMState) (i : String) : Bool :=
  decide (i ∈ s.collapsedIds)

/-- An engine state freshly attached to a graph (getState defaults). -/
def initState (nodes : List Node) (edges : List Edge) : CMState :=
  ⟨nodes, edges, [], [], [], [], [], []⟩

/-- A bounding box as returned by `node.boundingBox()`. -/
structure BBox where
  x1 : Rat
  y1 : Rat
  x2 : Rat
  y2 : Rat
deriving DecidableEq, Repr

/-- The graph store's bounding box of a simple node: its position extended by
half its dimensions on each side. -/
def boundingBox (n : Node) : BBox :=
  ⟨n.x - n.w / 2, n.y - n.h / 2, n.x + n.w / 2, n.y + n.h / 2⟩

/-- boxesOverlap of core.js. -/
def boxesOverlap (b1 b2 : BBox) : Bool :=
  !(decide (b1.x2 < b2.x1) || decide (b1.x1 > b2.x2) ||
    decide (b1.y2 < b2.y1) || decide (b1.y1 > b2.y2))

/-- The overlap record {overlapX, overlapY, dx, dy} of calculateOverlap. -/
structure Overlap where
  ox : Rat
  oy : Rat
  dx : Rat
  dy : Rat
deriving DecidableEq, Repr

/-- calculateOverlap of core.js. -/
def calculateOverlap (n1 n2 : Node) : Option Overlap :=
  let b1 := boundingBox n1
  let b2 := boundingBox n2
  if boxesOverlap b1 b2 then
    some ⟨min b1.x2 b2.x2 - max b1.x1 b2.x1,
          min b1.y2 b2.y2 - max b1.y1 b2.y1,
          (b1.x1 + b1.x2) / 2 - (b2.x1 + b2.x2) / 2,
          (b1.y1 + b1.y2) / 2 - (b2.y1 + b2.y2) / 2⟩
  else none

/-- separateNodes of core.js: push both nodes apart along the axis of smaller
overlap, each by half the overlap plus padding. -/
def separateNodes (s : CMState) (i1 i2 : String) (ov : Overlap) (padding : Rat) : CMState :=
  let move : Rat × Rat :=
    if ov.ox < ov.oy then ((ov.ox / 2 + padding) * (if ov.dx ≥ 0 then 1 else -1), 0)
    else (0, (ov.oy / 2 + padding) * (if ov.dy ≥ 0 then 1 else -1))
  let p1 := posOf s.nodes i1
  let p2 := posOf s.nodes i2
  let s1 := setNodePos s i1 (p1.1 + move.1, p1.2 + move.2)
  setNodePos s1 i2 (p2.1 - move.1, p2.2 - move.2)

/-- The node set both hasOverlaps and each resolveOverlaps pass scan: visible
(not hidden) nodes that are not compound parents, in element order. -/
def visibleNonParentIds (s : CMState) : List String :=
  ((s.nodes.filter (fun n => !(isHiddenEle s n.id))).filter
    (fun n => !(isParentNode s.nodes n.id))).map (fun n => n.id)

/-- All ordered index pairs i < j of the double for loop, in loop order. -/
def pairsOf : List String → List (String × String)
  | [] => []
  | a :: rest => rest.map (fun b => (a, b)) ++ pairsOf rest

/-- The ancestor test skipped by the pairwise scans:
`nodes[i].ancestors().has(nodes[j]) || nodes[j].ancestors().has(nodes[i])`. -/
def ancestorRelated (nodes : List Node) (a b : String) : Bool :=
  decide (b ∈ ancestorChain nodes nodes.length a) ||
  decide (a ∈ ancestorChain nodes nodes.length b)

/-- calculateOverlap applied to the current data of two node ids. -/
def overlapOf (s : CMState) (a b : String) : Option Overlap :=
  match getNode s.nodes a, getNode s.nodes b with
  | some n1, some n2 => calculateOverlap n1 n2
  | _, _ => none

/-- hasOverlaps of core.js: a non-destructive pairwise scan. -/
def hasOverlaps (s : CMState) : Bool :=
  (pairsOf (visibleNonParentIds s)).any (fun pr =>
    !(ancestorRelated s.nodes pr.1 pr.2) && (overlapOf s pr.1 pr.2).isSome)

/-- The body of the double for loop of resolveOverlaps, for one pair: skip
ancestor-related pairs, separate an overlapping pair and raise the flag. -/
def passStep (padding : Rat) (acc : CMState × Bool) (pr : String × String) : CMState × Bool :=
  if ancestorRelated acc.1.nodes pr.1 pr.2 then acc
  else
    match overlapOf acc.1 pr.1 pr.2 with
    | none => acc
    | some ov => (separateNodes acc.1 pr.1 pr.2 ov padding, true)

/-- One pass of the resolveOverlaps while loop: the visible node list is fixed
at pass start, every currently overlapping non-ancestor pair is separated once
(in loop order, against the evolving positions), and the flag records whether
any pair overlapped. -/
def onePass (s : CMState) (padding : Rat) : CMState × Bool :=
  (pairsOf (visibleNonParentIds s)).foldl (passStep padding) (s, false)

/-- The while loop of resolveOverlaps, fuelled by the remaining allowed passes.
Returns the final state and the number of passes actually run. -/
def resolveAux (padding : Rat) : Nat → CMState → CMState × Nat
  | 0, s => (s, 0)
  | fuel + 1, s =>
    let pr := onePass s padding
    if pr.2 then
      let r := resolveAux padding fuel pr.1
      (r.1, r.2 + 1)
    else (pr.1, 1)

/-- resolveOverlaps of core.js: run passes until one finds no overlap or the
iteration cap is hit; if the cap was hit and overlaps remain, emit the
layout-reset notification and report failure. -/
def resolveOverlaps (s : CMState) (maxIterations : Nat) (padding : Rat) : CMState × Bool :=
  let r := resolveAux padding maxIterations s
  if r.2 ≥ maxIterations && hasOverlaps r.1 then (emitEvent r.1 layoutResetEv, false)
  else (r.1, true)

/-- The `opts.maxIterations || 50` default. -/
def defaultMaxIterations : Nat := 50

/-- The `opts.overlapPadding || 10` default. -/
def defaultOverlapPadding : Rat := 10

/-- Arbitrary repositioning of nodes, covering what the delegated layout
capability may do to the graph between engine operations. -/
def setAllPositions (s : CMState) (f : String → Option (Rat × Rat)) : CMState :=
  { s with nodes := s.nodes.map (fun n =>
      match f n.id with
      | some p => { n with x := p.1, y := p.2 }
      | none => n) }

/-- Well-formedness guaranteed by the cytoscape graph store: unique node ids,
unique edge ids, parent references resolve, the compound hierarchy is acyclic,
and node and edge ids do not clash. -/
def Wellformed (s : CMState) : Prop :=
  (s.nodes.map (fun n => n.id)).Nodup ∧
  (s.edges.map (fun e => e.id)).Nodup ∧
  (∀ n ∈ s.nodes, ∀ p ∈ n.parent.toList, p ∈ s.nodes.map (fun m => m.id)) ∧
  (∀ n ∈ s.nodes, n.id ∉ ancestorChain s.nodes s.nodes.length n.id) ∧
  (∀ n ∈ s.nodes, ∀ e ∈ s.edges, n.id ≠ e.id)

instance (s : CMState) : Decidable (Wellformed s) := by
  unfold Wellformed
  infer_instance

/-! ### Basic lemmas about the set and map helpers -/

theorem mem_setAdd {l : List String} {x y : String} :
    y ∈ setAdd l x ↔ y ∈ l ∨ y = x := by
  unfold setAdd
  by_cases h : x ∈ l
  · simp only [if_pos h]
    constructor
    · exact fun hy => Or.inl hy
    · rintro (hy | rfl) <;> [exact hy; exact h]
  · simp [if_neg h]

theorem mem_setDel {l : List String} {x y : String} :
    y ∈ setDel l x ↔ y ∈ l ∧ y ≠ x := by
  unfold setDel
  simp

theorem lookup_cons {α : Type} {k a : String} {b : α} {t : List (String × α)} :
    List.lookup k ((a, b) :: t) = if k = a then some b else List.lookup k t := by
  by_cases h : k = a
  · subst h
    simp [List.lookup]
  · have hb : (k == a) = false := by simp [h]
    simp [List.lookup, hb, h]

theorem lookup_mapSet {α : Type} (m : List (String × α)) (k : String) (v : α) (q : String) :
    List.lookup q (mapSet m k v) = if q = k then some v else List.lookup q m := by
  unfold mapSet
  induction m with
  | nil =>
    by_cases h : q = k
    · simp [h, lookup_cons]
    · have hb : (q == k) = false := by simp [h]
      simp [h, List.lookup, hb]
  | cons hd t ih =>
    by_cases hk : hd.1 = k
    · have : decide (hd.1 ≠ k) = false := by simp [hk]
      rw [show ((hd :: t).filter (fun p => decide (p.1 ≠ k))) =
          t.filter (fun p => decide (p.1 ≠ k)) by simp [List.filter, this]]
      rw [ih]
      by_cases hq : q = k
      · simp [hq]
      · have : List.lookup q (hd :: t) = List.lookup q t := by
          obtain ⟨a, b⟩ := hd
          rw [lookup_cons, if_neg]
          intro h2
          exact hq (h2.trans hk)
        simp [hq, this]
    · have : decide (hd.1 ≠ k) = true := by simp [hk]
      rw [show ((hd :: t).filter (fun p => decide (p.1 ≠ k))) =
          hd :: t.filter (fun p => decide (p.1 ≠ k)) by simp [List.filter, this]]
      obtain ⟨a, b⟩ := hd
      rw [List.cons_append, lookup_cons, lookup_cons, ih]
      by_cases hq : q = a
      · have : ¬ q = k := fun h2 => hk (hq.symm.trans h2)
        simp [hq, this, hk]
      · simp [hq]

theorem lookup_mapDel {α : Type} (m : List (String × α)) (k : String) (q : String) :
    List.lookup q (mapDel m k) = if q = k then none else List.lookup q m := by
  unfold mapDel
  induction m with
  | nil => by_cases h : q = k <;> simp [h, List.lookup]
  | cons hd t ih =>
    obtain ⟨a, b⟩ := hd
    by_cases hk : a = k
    · subst hk
      rw [show (((a, b) :: t).filter (fun p => decide (p.1 ≠ a))) =
          t.filter (fun p => decide (p.1 ≠ a)) by simp [List.filter]]
      rw [ih]
      by_cases hq : q = a
      · simp [hq]
      · simp [hq, lookup_cons]
    · rw [show (((a, b) :: t).filter (fun p => decide (p.1 ≠ k))) =
          (a, b) :: t.filter (fun p => decide (p.1 ≠ k)) by simp [List.filter, hk]]
      rw [lookup_cons, lookup_cons, ih]
      by_cases hq : q = a
      · have : ¬ q = k := fun h2 => hk (hq.symm.trans h2)
        simp [hq, this, hk]
      · simp [hq]

theorem lookup_map_self {α : Type} (l : List String) (g : String → α) (x : String)
    (hx : x ∈ l) : List.lookup x (l.map (fun d => (d, g d))) = some (g x) := by
  induction l with
  | nil => cases hx
  | cons a t ih =>
    rw [List.map_cons, lookup_cons]
    by_cases h : x = a
    · simp [h]
    · have : x ∈ t := by
        cases List.mem_cons.mp hx with
        | inl h2 => exact absurd h2 h
        | inr h2 => exact h2
      simp [h, ih this]

/-! ### Frame lemmas: which state fields each operation leaves untouched -/

theorem foldl_proj {α β γ : Type} (f : α → β → α) (proj : α → γ)
    (h : ∀ s b, proj (f s b) = proj s) (l : List β) (s : α) :
    proj (l.foldl f s) = proj s := by
  induction l generalizing s with
  | nil => rfl
  | cons a t ih => rw [List.foldl_cons, ih, h]

@[simp] theorem hideElement_nodes (s : CMState) (i : String) :
    (hideElement s i).nodes = s.nodes := rfl
@[simp] theorem hideElement_edges (s : CMState) (i : String) :
    (hideElement s i).edges = s.edges := rfl
@[simp] theorem hideElement_collapsedIds (s : CMState) (i : String) :
    (hideElement s i).collapsedIds = s.collapsedIds := rfl
@[simp] theorem hideElement_hiddenElementsMap (s : CMState) (i : String) :
    (hideElement s i).hiddenElementsMap = s.hiddenElementsMap := rfl
@[simp] theorem hideElement_savedPositionsMap (s : CMState) (i : String) :
    (hideElement s i).savedPositionsMap = s.savedPositionsMap := rfl
@[simp] theorem hideElement_projectionEdgesMap (s : CMState) (i : String) :
    (hideElement s i).projectionEdgesMap = s.projectionEdgesMap := rfl
@[simp] theorem hideElement_events (s : CMState) (i : String) :
    (hideElement s i).events = s.events := rfl

@[simp] theorem showElement_nodes (s : CMState) (i : String) :
    (showElement s i).nodes = s.nodes := rfl
@[simp] theorem showElement_edges (s : CMState) (i : String) :
    (showElement s i).edges = s.edges := rfl
@[simp] theorem showElement_collapsedIds (s : CMState) (i : String) :
    (showElement s i).collapsedIds = s.collapsedIds := rfl
@[simp] theorem showElement_hiddenElementsMap (s : CMState) (i : String) :
    (showElement s i).hiddenElementsMap = s.hiddenElementsMap := rfl
@[simp] theorem showElement_savedPositionsMap (s : CMState) (i : String) :
    (showElement s i).savedPositionsMap = s.savedPositionsMap := rfl
@[simp] theorem showElement_projectionEdgesMap (s : CMState) (i : String) :
    (showElement s i).projectionEdgesMap = s.projectionEdgesMap := rfl
@[simp] theorem showElement_events (s : CMState) (i : String) :
    (showElement s i).events = s.events := rfl

@[simp] theorem emitEvent_nodes (s : CMState) (e : String) :
    (emitEvent s e).nodes = s.nodes := rfl
@[simp] theorem emitEvent_edges (s : CMState) (e : String) :
    (emitEvent s e).edges = s.edges := rfl
@[simp] theorem emitEvent_collapsedIds (s : CMState) (e : String) :
    (emitEvent s e).collapsedIds = s.collapsedIds := rfl
@[simp] theorem emitEvent_hiddenElementsMap (s : CMState) (e : String) :
    (emitEvent s e).hiddenElementsMap = s.hiddenElementsMap := rfl
@[simp] theorem emitEvent_savedPositionsMap (s : CMState) (e : String) :
    (emitEvent s e).savedPositionsMap = s.savedPositionsMap := rfl
@[simp] theorem emitEvent_projectionEdgesMap (s : CMState) (e : String) :
    (emitEvent s e).projectionEdgesMap = s.projectionEdgesMap := rfl
@[simp] theorem emitEvent_hiddenIds (s : CMState) (e : String) :
    (emitEvent s e).hiddenIds = s.hiddenIds := rfl

@[simp] theorem setNodePos_edges (s : CMState) (i : String) (p : Rat × Rat) :
    (setNodePos s i p).edges = s.edges := rfl
@[simp] theorem setNodePos_collapsedIds (s : CMState) (i : String) (p : Rat × Rat) :
    (setNodePos s i p).collapsedIds = s.collapsedIds := rfl
@[simp] theorem setNodePos_hiddenElementsMap (s : CMState) (i : String) (p : Rat × Rat) :
    (setNodePos s i p).hiddenElementsMap = s.hiddenElementsMap := rfl
@[simp] theorem setNodePos_savedPositionsMap (s : CMState) (i : String) (p : Rat × Rat) :
    (setNodePos s i p).savedPositionsMap = s.savedPositionsMap := rfl
@[simp] theorem setNodePos_projectionEdgesMap (s : CMState) (i : String) (p : Rat × Rat) :
    (setNodePos s i p).projectionEdgesMap = s.projectionEdgesMap := rfl
@[simp] theorem setNodePos_hiddenIds (s : CMState) (i : String) (p : Rat × Rat) :
    (setNodePos s i p).hiddenIds = s.hiddenIds := rfl
@[simp] theorem setNodePos_events (s : CMState) (i : String) (p : Rat × Rat) :
    (setNodePos s i p).events = s.events := rfl

@[simp] theorem hideIds_nodes (s : CMState) (l : List String) :
    (hideIds s l).nodes = s.nodes :=
  foldl_proj hideElement CMState.nodes (fun _ _ => rfl) l s
@[simp] theorem hideIds_edges (s : CMState) (l : List String) :
    (hideIds s l).edges = s.edges :=
  foldl_proj hideElement CMState.edges (fun _ _ => rfl) l s
@[simp] theorem hideIds_collapsedIds (s : CMState) (l : List String) :
    (hideIds s l).collapsedIds = s.collapsedIds :=
  foldl_proj hideElement CMState.collapsedIds (fun _ _ => rfl) l s
@[simp] theorem hideIds_hiddenElementsMap (s : CMState) (l : List String) :
    (hideIds s l).hiddenElementsMap = s.hiddenElementsMap :=
  foldl_proj hideElement CMState.hiddenElementsMap (fun _ _ => rfl) l s
@[simp] theorem hideIds_savedPositionsMap (s : CMState) (l : List String) :
    (hideIds s l).savedPositionsMap = s.savedPositionsMap :=
  foldl_proj hideElement CMState.savedPositionsMap (fun _ _ => rfl) l s
@[simp] theorem hideIds_projectionEdgesMap (s : CMState) (l : List String) :
    (hideIds s l).projectionEdgesMap = s.projectionEdgesMap :=
  foldl_proj hideElement CMState.projectionEdgesMap (fun _ _ => rfl) l s
@[simp] theorem hideIds_events (s : CMState) (l : List String) :
    (hideIds s l).events = s.events :=
  foldl_proj hideElement CMState.events (fun _ _ => rfl) l s

theorem mem_hideIds (s : CMState) (l : List String) (x : String) :
    x ∈ (hideIds s l).hiddenIds ↔ x ∈ s.hiddenIds ∨ x ∈ l := by
  induction l generalizing s with
  | nil => simp [hideIds]
  | cons a t ih =>
    have : hideIds s (a :: t) = hideIds (hideElement s a) t := rfl
    rw [this, ih]
    simp only [hideElement, mem_setAdd, List.mem_cons]
    tauto

@[simp] theorem saveLocalPositions_nodes (s : CMState) (p : String) (l : List String) :
    (saveLocalPositions s p l).nodes = s.nodes := rfl
@[simp] theorem saveLocalPositions_edges (s : CMState) (p : String) (l : List String) :
    (saveLocalPositions s p l).edges = s.edges := rfl
@[simp] theorem saveLocalPositions_collapsedIds (s : CMState) (p : String) (l : List String) :
    (saveLocalPositions s p l).collapsedIds = s.collapsedIds := rfl
@[simp] theorem saveLocalPositions_hiddenElementsMap (s : CMState) (p : String)
    (l : List String) :
    (saveLocalPositions s p l).hiddenElementsMap = s.hiddenElementsMap := rfl
@[simp] theorem saveLocalPositions_projectionEdgesMap (s : CMState) (p : String)
    (l : List String) :
    (saveLocalPositions s p l).projectionEdgesMap = s.projectionEdgesMap := rfl
@[simp] theorem saveLocalPositions_hiddenIds (s : CMState) (p : String) (l : List String) :
    (saveLocalPositions s p l).hiddenIds = s.hiddenIds := rfl
@[simp] theorem saveLocalPositions_events (s : CMState) (p : String) (l : List String) :
    (saveLocalPositions s p l).events = s.events := rfl

theorem saveLocalPositions_savedPositionsMap (s : CMState) (p : String) (l : List String) :
    (saveLocalPositions s p l).savedPositionsMap =
      mapSet s.savedPositionsMap p (l.map (fun d =>
        (d, ((posOf s.nodes d).1 - (posOf s.nodes p).1,
             (posOf s.nodes d).2 - (posOf s.nodes p).2)))) := rfl

theorem showStep_nodes (nodeId : String) (t : CMState) (d : String) :
    (showStep nodeId t d).nodes = t.nodes := by
  unfold showStep
  cases getNode t.nodes d with
  | none => rfl
  | some n =>
    by_cases hok : (match n.parent with
      | none => true
      | some p => decide (p = nodeId) || !(decide (p ∈ t.collapsedIds))) = true
    · simp only [hok, if_true]
      exact foldl_proj _ CMState.nodes (fun u e => by by_cases hc :
        (!(isHiddenEle u e.source) && !(isHiddenEle u e.target) && !e.isProjection) = true <;>
        simp [hc]) _ _
    · simp only [hok, Bool.false_eq_true, if_false]

theorem showStep_edges (nodeId : String) (t : CMState) (d : String) :
    (showStep nodeId t d).edges = t.edges := by
  unfold showStep
  cases getNode t.nodes d with
  | none => rfl
  | some n =>
    by_cases hok : (match n.parent with
      | none => true
      | some p => decide (p = nodeId) || !(decide (p ∈ t.collapsedIds))) = true
    · simp only [hok, if_true]
      exact foldl_proj _ CMState.edges (fun u e => by by_cases hc :
        (!(isHiddenEle u e.source) && !(isHiddenEle u e.target) && !e.isProjection) = true <;>
        simp [hc]) _ _
    · simp only [hok, Bool.false_eq_true, if_false]

theorem showStep_collapsedIds (nodeId : String) (t : CMState) (d : String) :
    (showStep nodeId t d).collapsedIds = t.collapsedIds := by
  unfold showStep
  cases getNode t.nodes d with
  | none => rfl
  | some n =>
    by_cases hok : (match n.parent with
      | none => true
      | some p => decide (p = nodeId) || !(decide (p ∈ t.collapsedIds))) = true
    · simp only [hok, if_true]
      exact foldl_proj _ CMState.collapsedIds (fun u e => by by_cases hc :
        (!(isHiddenEle u e.source) && !(isHiddenEle u e.target) && !e.isProjection) = true <;>
        simp [hc]) _ _
    · simp only [hok, Bool.false_eq_true, if_false]

theorem showStep_hiddenElementsMap (nodeId : String) (t : CMState) (d : String) :
    (showStep nodeId t d).hiddenElementsMap = t.hiddenElementsMap := by
  unfold showStep
  cases getNode t.nodes d with
  | none => rfl
  | some n =>
    by_cases hok : (match n.parent with
      | none => true
      | some p => decide (p = nodeId) || !(decide (p ∈ t.collapsedIds))) = true
    · simp only [hok, if_true]
      exact foldl_proj _ CMState.hiddenElementsMap (fun u e => by by_cases hc :
        (!(isHiddenEle u e.source) && !(isHiddenEle u e.target) && !e.isProjection) = true <;>
        simp [hc]) _ _
    · simp only [hok, Bool.false_eq_true, if_false]

theorem showStep_savedPositionsMap (nodeId : String) (t : CMState) (d : String) :
    (showStep nodeId t d).savedPositionsMap = t.savedPositionsMap := by
  unfold showStep
  cases getNode t.nodes d with
  | none => rfl
  | some n =>
    by_cases hok : (match n.parent with
      | none => true
      | some p => decide (p = nodeId) || !(decide (p ∈ t.collapsedIds))) = true
    · simp only [hok, if_true]
      exact foldl_proj _ CMState.savedPositionsMap (fun u e => by by_cases hc :
        (!(isHiddenEle u e.source) && !(isHiddenEle u e.target) && !e.isProjection) = true <;>
        simp [hc]) _ _
    · simp only [hok, Bool.false_eq_true, if_false]

theorem showStep_projectionEdgesMap (nodeId : String) (t : CMState) (d : String) :
    (showStep nodeId t d).projectionEdgesMap = t.projectionEdgesMap := by
  unfold showStep
  cases getNode t.nodes d with
  | none => rfl
  | some n =>
    by_cases hok : (match n.parent with
      | none => true
      | some p => decide (p = nodeId) || !(decide (p ∈ t.collapsedIds))) = true
    · simp only [hok, if_true]
      exact foldl_proj _ CMState.projectionEdgesMap (fun u e => by by_cases hc :
        (!(isHiddenEle u e.source) && !(isHiddenEle u e.target) && !e.isProjection) = true <;>
        simp [hc]) _ _
    · simp only [hok, Bool.false_eq_true, if_false]

theorem showStep_events (nodeId : String) (t : CMState) (d : String) :
    (showStep nodeId t d).events = t.events := by
  unfold showStep
  cases getNode t.nodes d with
  | none => rfl
  | some n =>
    by_cases hok : (match n.parent with
      | none => true
      | some p => decide (p = nodeId) || !(decide (p ∈ t.collapsedIds))) = true
    · simp only [hok, if_true]
      exact foldl_proj _ CMState.events (fun u e => by by_cases hc :
        (!(isHiddenEle u e.source) && !(isHiddenEle u e.target) && !e.isProjection) = true <;>
        simp [hc]) _ _
    · simp only [hok, Bool.false_eq_true, if_false]

/-- The show loop never hides anything: hidden ids can only shrink. -/
theorem showStep_hiddenIds_subset (nodeId : String) (t : CMState) (d : String) (x : String)
    (hx : x ∈ (showStep nodeId t d).hiddenIds) : x ∈ t.hiddenIds := by
  unfold showStep at hx
  revert hx
  cases getNode t.nodes d with
  | none => exact fun hx => hx
  | some n =>
    by_cases hok : (match n.parent with
      | none => true
      | some p => decide (p = nodeId) || !(decide (p ∈ t.collapsedIds))) = true
    · simp only [hok, if_true]
      intro hx
      have sub : ∀ (l : List Edge) (u : CMState), x ∈ (l.foldl (fun u e =>
          if !(isHiddenEle u e.source) && !(isHiddenEle u e.target) && !e.isProjection
          then showElement u e.id else u) u).hiddenIds → x ∈ u.hiddenIds := by
        intro l
        induction l with
        | nil => exact fun u h => h
        | cons a r ih =>
          intro u h
          have h2 := ih _ h
          revert h2
          by_cases hc : (!(isHiddenEle u a.source) && !(isHiddenEle u a.target) &&
              !a.isProjection) = true
          · simp only [List.foldl_cons, hc, if_true]
            intro h2
            exact (mem_setDel.mp h2).1
          · simp only [List.foldl_cons, hc, if_false]
            exact fun h2 => h2
      have h3 := sub _ _ hx
      exact (mem_setDel.mp h3).1
    · simp only [hok, Bool.false_eq_true, if_false]
      exact fun hx => hx

theorem restore_fold_proj {γ : Type} (positions : List (String × (Rat × Rat))) (pp : Rat × Rat)
    (proj : CMState → γ) (hp : ∀ s i p, proj (setNodePos s i p) = proj s)
    (l : List Node) (s : CMState) :
    proj (l.foldl (restoreStep positions pp) s) = proj s := by
  refine foldl_proj _ proj (fun u c => ?_) l s
  unfold restoreStep
  cases List.lookup c.id positions with
  | none => rfl
  | some lp => exact hp u c.id _

theorem restoreLocalPositions_edges (s : CMState) (p : String) :
    (restoreLocalPositions s p).edges = s.edges := by
  unfold restoreLocalPositions
  cases List.lookup p s.savedPositionsMap with
  | none => rfl
  | some positions => exact restore_fold_proj positions _ CMState.edges (fun _ _ _ => rfl) _ _

theorem restoreLocalPositions_collapsedIds (s : CMState) (p : String) :
    (restoreLocalPositions s p).collapsedIds = s.collapsedIds := by
  unfold restoreLocalPositions
  cases List.lookup p s.savedPositionsMap with
  | none => rfl
  | some positions =>
    exact restore_fold_proj positions _ CMState.collapsedIds (fun _ _ _ => rfl) _ _

theorem restoreLocalPositions_hiddenElementsMap (s : CMState) (p : String) :
    (restoreLocalPositions s p).hiddenElementsMap = s.hiddenElementsMap := by
  unfold restoreLocalPositions
  cases List.lookup p s.savedPositionsMap with
  | none => rfl
  | some positions =>
    exact restore_fold_proj positions _ CMState.hiddenElementsMap (fun _ _ _ => rfl) _ _

theorem restoreLocalPositions_projectionEdgesMap (s : CMState) (p : String) :
    (restoreLocalPositions s p).projectionEdgesMap = s.projectionEdgesMap := by
  unfold restoreLocalPositions
  cases List.lookup p s.savedPositionsMap with
  | none => rfl
  | some positions =>
    exact restore_fold_proj positions _ CMState.projectionEdgesMap (fun _ _ _ => rfl) _ _

theorem restoreLocalPositions_hiddenIds (s : CMState) (p : String) :
    (restoreLocalPositions s p).hiddenIds = s.hiddenIds := by
  unfold restoreLocalPositions
  cases List.lookup p s.savedPositionsMap with
  | none => rfl
  | some positions =>
    exact restore_fold_proj positions _ CMState.hiddenIds (fun _ _ _ => rfl) _ _

theorem restoreLocalPositions_events (s : CMState) (p : String) :
    (restoreLocalPositions s p).events = s.events := by
  unfold restoreLocalPositions
  cases List.lookup p s.savedPositionsMap with
  | none => rfl
  | some positions => exact restore_fold_proj positions _ CMState.events (fun _ _ _ => rfl) _ _

@[simp] theorem createProjections_nodes (s : CMState) (p : String) (d : List String) :
    (createProjections s p d).nodes = s.nodes := by
  simp [createProjections]

@[simp] theorem createProjections_collapsedIds (s : CMState) (p : String) (d : List String) :
    (createProjections s p d).collapsedIds = s.collapsedIds := by
  simp [createProjections]

@[simp] theorem createProjections_hiddenElementsMap (s : CMState) (p : String)
    (d : List String) :
    (createProjections s p d).hiddenElementsMap = s.hiddenElementsMap := by
  simp [createProjections]

@[simp] theorem createProjections_savedPositionsMap (s : CMState) (p : String)
    (d : List String) :
    (createProjections s p d).savedPositionsMap = s.savedPositionsMap := by
  simp [createProjections]

@[simp] theorem createProjections_events (s : CMState) (p : String) (d : List String) :
    (createProjections s p d).events = s.events := by
  simp [createProjections]

theorem createProjections_edges (s : CMState) (p : String) (d : List String) :
    (createProjections s p d).edges = s.edges ++
      (buildProjections p (groupExternal (d ++ [p])
        (classifyEdges s.edges (d ++ [p]) d).2.2)).1 := by
  simp [createProjections]

theorem createProjections_projectionEdgesMap (s : CMState) (p : String) (d : List String) :
    (createProjections s p d).projectionEdgesMap =
      mapSet s.projectionEdgesMap p
        ((buildProjections p (groupExternal (d ++ [p])
          (classifyEdges s.edges (d ++ [p]) d).2.2)).2,
         (classifyEdges s.edges (d ++ [p]) d).2.2.map (fun e => e.id)) := by
  simp [createProjections]

theorem mem_createProjections_hiddenIds (s : CMState) (p : String) (d : List String)
    (x : String) :
    x ∈ (createProjections s p d).hiddenIds ↔
      x ∈ s.hiddenIds ∨ x ∈ (classifyEdges s.edges (d ++ [p]) d).2.1.map (fun e => e.id) := by
  simp only [createProjections]
  exact mem_hideIds s _ x

theorem removeProjections_nodes (s : CMState) (p : String) :
    (removeProjections s p).nodes = s.nodes := by
  unfold removeProjections
  cases List.lookup p s.projectionEdgesMap <;> rfl

theorem removeProjections_collapsedIds (s : CMState) (p : String) :
    (removeProjections s p).collapsedIds = s.collapsedIds := by
  unfold removeProjections
  cases List.lookup p s.projectionEdgesMap <;> rfl

theorem removeProjections_hiddenElementsMap (s : CMState) (p : String) :
    (removeProjections s p).hiddenElementsMap = s.hiddenElementsMap := by
  unfold removeProjections
  cases List.lookup p s.projectionEdgesMap <;> rfl

theorem removeProjections_savedPositionsMap (s : CMState) (p : String) :
    (removeProjections s p).savedPositionsMap = s.savedPositionsMap := by
  unfold removeProjections
  cases List.lookup p s.projectionEdgesMap <;> rfl

theorem removeProjections_hiddenIds (s : CMState) (p : String) :
    (removeProjections s p).hiddenIds = s.hiddenIds := by
  unfold removeProjections
  cases List.lookup p s.projectionEdgesMap <;> rfl

theorem removeProjections_events (s : CMState) (p : String) :
    (removeProjections s p).events = s.events := by
  unfold removeProjections
  cases List.lookup p s.projectionEdgesMap <;> rfl

/-! ### Branch lemmas for collapse and expand -/

theorem collapse_not_parent (s : CMState) (n : String)
    (h : isParentNode s.nodes n = false) : collapse s n = (s, false) := by
  simp [collapse, h]

theorem collapse_already (s : CMState) (n : String) (h : n ∈ s.collapsedIds) :
    collapse s n = (s, false) := by
  unfold collapse
  by_cases hp : isParentNode s.nodes n = true
  · simp [hp, h]
  · have hf : isParentNode s.nodes n = false := by
      cases hb : isParentNode s.nodes n
      · rfl
      · exact absurd hb hp
    simp [hf]

theorem collapse_success (s : CMState) (n : String) (hp : isParentNode s.nodes n = true)
    (hc : n ∉ s.collapsedIds) : collapse s n = (collapseBody s n, true) := by
  simp [collapse, hp, hc]

theorem expand_not_collapsed (s : CMState) (n : String) (h : n ∉ s.collapsedIds) :
    expand s n = (s, false) := by
  simp [expand, h]

theorem expand_success (s : CMState) (n : String) (h : n ∈ s.collapsedIds) :
    expand s n = (expandBody s n, true) := by
  simp [expand, h]

/-! ### Field characterization of a successful collapse -/

theorem collapseBody_nodes (s : CMState) (n : String) :
    (collapseBody s n).nodes = s.nodes := by
  simp [collapseBody]

theorem collapseBody_collapsedIds (s : CMState) (n : String) :
    (collapseBody s n).collapsedIds = setAdd s.collapsedIds n := by
  simp [collapseBody]

theorem collapseBody_events (s : CMState) (n : String) :
    (collapseBody s n).events = s.events ++ [collapseEv] := by
  simp [collapseBody, emitEvent]

theorem collapseBody_hiddenElementsMap (s : CMState) (n : String) :
    (collapseBody s n).hiddenElementsMap =
      mapSet s.hiddenElementsMap n (descendantIds s.nodes n) := by
  simp [collapseBody]

theorem collapseBody_savedPositionsMap (s : CMState) (n : String) :
    (collapseBody s n).savedPositionsMap =
      mapSet s.savedPositionsMap n ((descendantIds s.nodes n).map (fun d =>
        (d, ((posOf s.nodes d).1 - (posOf s.nodes n).1,
             (posOf s.nodes d).2 - (posOf s.nodes n).2)))) := by
  simp [collapseBody, saveLocalPositions]

theorem collapseBody_projectionEdgesMap (s : CMState) (n : String) :
    (collapseBody s n).projectionEdgesMap =
      mapSet s.projectionEdgesMap n
        ((buildProjections n (groupExternal (descendantIds s.nodes n ++ [n])
          (classifyEdges s.edges (descendantIds s.nodes n ++ [n])
            (descendantIds s.nodes n)).2.2)).2,
         (classifyEdges s.edges (descendantIds s.nodes n ++ [n])
           (descendantIds s.nodes n)).2.2.map (fun e => e.id)) := by
  simp [collapseBody, createProjections_projectionEdgesMap]

theorem collapseBody_edges (s : CMState) (n : String) :
    (collapseBody s n).edges = s.edges ++
      (buildProjections n (groupExternal (descendantIds s.nodes n ++ [n])
        (classifyEdges s.edges (descendantIds s.nodes n ++ [n])
          (descendantIds s.nodes n)).2.2)).1 := by
  simp [collapseBody, createProjections_edges]

theorem mem_collapseBody_hiddenIds (s : CMState) (n : String) (x : String) :
    x ∈ (collapseBody s n).hiddenIds ↔
      x ∈ s.hiddenIds ∨ x ∈ descendantIds s.nodes n ∨
      x ∈ touchingEdgeIds s.edges (descendantIds s.nodes n) ∨
      x ∈ (classifyEdges s.edges (descendantIds s.nodes n ++ [n])
        (descendantIds s.nodes n)).2.1.map (fun e => e.id) := by
  simp only [collapseBody]
  rw [show (emitEvent _ collapseEv).hiddenIds = _ from emitEvent_hiddenIds _ _]
  simp only [mem_createProjections_hiddenIds, mem_hideIds, hideIds_edges,
    saveLocalPositions_edges, saveLocalPositions_hiddenIds, hideIds_nodes,
    saveLocalPositions_nodes]
  tauto

/-! ### Concrete example graphs used by witnesses and counterexamples -/

def exN (i : String) (p : Option String) (x y : Rat) : Node :=
  ⟨i, p, x, y, 10, 10⟩

/-- The round-trip scenario of the spec: parent P with children c1, c2, both
with edges to the external node X. -/
def rtNodes : List Node :=
  [exN ("P") none 50 50, exN ("c1") (some ("P")) 100 200,
   exN ("c2") (some ("P")) 120 210, exN ("X") none 300 100]

def rtEdges : List Edge :=
  [⟨"e1", "c1", "X", false⟩, ⟨"e2", "c2", "X", false⟩]

def rt0 : CMState := initState rtNodes rtEdges

/-- Four-level chain a ⊃ i ⊃ m ⊃ x (the nesting scenarios). -/
def nlNodes : List Node :=
  [exN ("a") none 0 0, exN ("i") (some ("a")) 1 1,
   exN ("m") (some ("i")) 2 2, exN ("x") (some ("m")) 3 3]

def nl0 : CMState := initState nlNodes []

/-- collapse the inner compound i, then its ancestor a, then expand a only. -/
def nl3 : CMState := (expand ((collapse ((collapse nl0 ("i")).1) ("a")).1) ("a")).1

/-- Graph whose external node ids contain the projection-key separator:
P ⊃ {c1, c2} with edges to the externals named a:b and a:c; a node plainly
named a also exists. -/
def cbNodes : List Node :=
  [exN ("P") none 0 0, exN ("c1") (some ("P")) 1 1, exN ("c2") (some ("P")) 2 2,
   exN ("a:b") none 3 3, exN ("a:c") none 4 4, exN ("a") none 5 5]

def cbEdges : List Edge :=
  [⟨"e1", "c1", "a:b", false⟩, ⟨"e2", "c2", "a:c", false⟩]

def cb1 : CMState := (collapse (initState cbNodes cbEdges) ("P")).1

/-- Graph with an edge whose inside endpoint is the collapsing parent itself:
P ⊃ c and an edge e from P to the external X. -/
def pxNodes : List Node :=
  [exN ("P") none 0 0, exN ("c") (some ("P")) 1 1, exN ("X") none 2 2]

def pxEdges : List Edge := [⟨"e", "P", "X", false⟩]

def px1 : CMState := (collapse (initState pxNodes pxEdges) ("P")).1

/-- Graph with a self-loop on the collapsing parent: P ⊃ c and an edge l from
P to P (both endpoints inside the collapsing set). -/
def slNodes : List Node := [exN ("P") none 0 0, exN ("c") (some ("P")) 1 1]

def slEdges : List Edge := [⟨"l", "P", "P", false⟩]

def sl1 : CMState := (collapse (initState slNodes slEdges) ("P")).1

/-- Collapse of an already-hidden compound: collapse a first (hiding i), then
collapse i itself. -/
def ahState : CMState := (collapse ((collapse nl0 ("a")).1) ("i")).1

/-! ### C6 and C7 -/

/-- Claim C6: invalid operations are benign no-ops returning false. Collapsing a
node without children, collapsing an already-collapsed node and expanding a
non-collapsed node each leave the entire engine state (graph, hidden set,
collapsed set, saved positions, projection records, events) unchanged and
return false; in particular a leaf stays non-collapsed. -/
theorem claim6_invalid_ops_noop (s : CMState) (n : String) :
    (isParentNode s.nodes n = false → collapse s n = (s, false)) ∧
    (n ∈ s.collapsedIds → collapse s n = (s, false)) ∧
    (n ∉ s.collapsedIds → expand s n = (s, false)) ∧
    (isParentNode s.nodes n = false →
      isCollapsedNode (collapse s n).1 n = isCollapsedNode s n) := by
  refine ⟨fun h => collapse_not_parent s n h, fun h => collapse_already s n h,
    fun h => expand_not_collapsed s n h, fun h => ?_⟩
  rw [collapse_not_parent s n h]

/-- Witness for C6 at a concrete leaf: X has no children in the round-trip
graph, so collapse fails, expand fails, and X stays non-collapsed. -/
theorem claim6_invalid_ops_noop_witness :
    (isParentNode rt0.nodes ("X") = false ∧ collapse rt0 ("X") = (rt0, false)) ∧
    (expand rt0 ("X") = (rt0, false)) ∧
    isCollapsedNode (collapse rt0 ("X")).1 ("X") = isCollapsedNode rt0 ("X") := by
  have h := claim6_invalid_ops_noop rt0 ("X")
  exact ⟨⟨by decide, h.1 (by decide)⟩, h.2.2.1 (by decide), h.2.2.2 (by decide)⟩

/-- Claim C7: collapse is idempotent. A second collapse of the same node returns at
the already-collapsed (or still-not-a-parent) guard, so the state after two
collapses is exactly the state after one: in particular the hidden-element
set and the projection-edge set are identical. -/
theorem claim7_collapse_idempotent (s : CMState) (n : String) :
    (collapse (collapse s n).1 n).1 = (collapse s n).1 := by
  cases hp : isParentNode s.nodes n with
  | false =>
    rw [collapse_not_parent s n hp, collapse_not_parent s n hp]
  | true =>
    by_cases hc : n ∈ s.collapsedIds
    · rw [collapse_already s n hc, collapse_already s n hc]
    · rw [collapse_success s n hp hc]
      have h2 : n ∈ (collapseBody s n).collapsedIds := by
        rw [collapseBody_collapsedIds]
        exact mem_setAdd.mpr (Or.inr rfl)
      rw [collapse_already _ n h2]

/-! ### C2: the projection-key split truncates external ids -/

/-- Claim C2 (failing-input evaluation): collapsing P in the colon graph creates two
outgoing projection edges for P, both with target a — the key
`out:a:b` re-split on the colon yields external id a — so the direction
(out, a) carries two recorded projection edges, not at most one. -/
theorem claim2_colon_split_two_projections :
    (cb1.edges.filter (fun e => e.isProjection &&
      decide (e.source = ("P")) && decide (e.target = ("a")))).length = 2 ∧
    List.lookup ("P") cb1.projectionEdgesMap =
      some (["_proj_P_0", "_proj_P_1"], ["e1", "e2"]) ∧
    (cb1.edges.filter (fun e => e.isProjection)).length = 2 := by
  decide

/-! ### C5: expanding an ancestor leaks deep descendants of a collapsed inner node -/

/-- Claim C5 (failing-input evaluation): after collapse(i); collapse(a); expand(a)
in the chain a ⊃ i ⊃ m ⊃ x, the inner node i is still collapsed and its
child m is still hidden, but its grandchild x has been un-hidden (x's direct
parent m is not itself collapsed, so the show loop released it), contradicting
the claim that every descendant of i remains hidden. -/
theorem claim5_deep_descendant_leak :
    isCollapsedNode nl3 ("i") = true ∧
    isHiddenEle nl3 ("m") = true ∧
    isHiddenEle nl3 ("x") = false := by
  decide

/-! ### Closed counterexamples -/

/-- Claim C3 counterexample: in the graph P ⊃ c with the edge e from P to the
external X, e touches P ∈ D ∪ \x7bP\x7d and has exactly one endpoint inside,
yet after a successful collapse(P) it is neither hidden nor part of any
projection group (the record for P is empty): the classification loop only
visits edges incident to descendants, never edges whose only inside endpoint
is P itself. -/
theorem claim3_parent_edge_not_classified :
    (collapse (initState pxNodes pxEdges) ("P")).2 = true ∧
    isHiddenEle px1 ("e") = false ∧
    List.lookup ("P") px1.projectionEdgesMap = some ([], []) := by
  decide

/-- Claim C4 counterexample: in the graph P ⊃ c with the self-loop l from P to P,
both endpoints of l lie inside D ∪ \x7bP\x7d, and indeed no projection is
created for it — but l is not hidden either (it is incident to no descendant,
so collapse never touches it), refuting the "it is hidden" half of the
claim. -/
theorem claim4_self_loop_not_hidden :
    (collapse (initState slNodes slEdges) ("P")).2 = true ∧
    isHiddenEle sl1 ("l") = false ∧
    List.lookup ("P") sl1.projectionEdgesMap = some ([], []) := by
  decide

def c9s : CMState := (collapse ((collapse nl0 ("i")).1) ("a")).1

/-- Claim C9 counterexample: collapse the inner node i of the chain a ⊃ i ⊃ m ⊃ x
and then its ancestor a. Both are collapsed, and the id m (likewise x)
appears in the hidden-descendant record and in the saved-position map of both
i and a at once, refuting the claimed disjointness of collapse records for
this reachable state. -/
theorem claim9_records_overlap :
    ("i") ∈ c9s.collapsedIds ∧ ("a") ∈ c9s.collapsedIds ∧
    List.lookup ("i") c9s.hiddenElementsMap = some (["m", "x"]) ∧
    List.lookup ("a") c9s.hiddenElementsMap = some (["i", "m", "x"]) ∧
    ((List.lookup ("i") c9s.savedPositionsMap).getD []).map (fun q => q.1) = ["m", "x"] ∧
    ((List.lookup ("a") c9s.savedPositionsMap).getD []).map (fun q => q.1) =
      ["i", "m", "x"] := by
  decide

/-- Claim C10 counterexample: collapse the root a of the chain a ⊃ i ⊃ m ⊃ x,
hiding i; then collapse(i) itself. The second collapse succeeds (returns
true), yet isHidden(i) is still true immediately afterwards — collapse never
hides its argument, but it does not un-hide it either, so the conclusion
"isHidden(P) is false immediately after collapse(P)" fails for an already
hidden P. -/
theorem claim10_collapsed_parent_still_hidden :
    (collapse ((collapse nl0 ("a")).1) ("i")).2 = true ∧
    isHiddenEle ahState ("i") = true := by
  decide

/-! ### Lemmas for the overlap-resolution loop (C8) -/

theorem passStep_flag_true (padding : Rat) (s : CMState) (pr : String × String) :
    (passStep padding (s, true) pr).2 = true := by
  unfold passStep
  by_cases h : ancestorRelated s.nodes pr.1 pr.2 = true
  · simp [h]
  · have hf : ancestorRelated s.nodes pr.1 pr.2 = false := by
      cases hb : ancestorRelated s.nodes pr.1 pr.2
      · rfl
      · exact absurd hb h
    simp only [hf]
    cases overlapOf s pr.1 pr.2 <;> simp

theorem pass_fold_flag_true (padding : Rat) (l : List (String × String)) (s : CMState) :
    (l.foldl (passStep padding) (s, true)).2 = true := by
  induction l generalizing s with
  | nil => rfl
  | cons a t ih =>
    have h := passStep_flag_true padding s a
    rw [List.foldl_cons,
      show passStep padding (s, true) a =
        ((passStep padding (s, true) a).1, (passStep padding (s, true) a).2) from rfl,
      h]
    exact ih _

theorem pass_fold_false (padding : Rat) (l : List (String × String)) (s : CMState)
    (hb : (l.foldl (passStep padding) (s, false)).2 = false) :
    (l.foldl (passStep padding) (s, false)).1 = s ∧
    ∀ pr ∈ l, ancestorRelated s.nodes pr.1 pr.2 = true ∨ overlapOf s pr.1 pr.2 = none := by
  induction l generalizing s with
  | nil => exact ⟨rfl, fun pr h => absurd h (List.not_mem_nil pr)⟩
  | cons a t ih =>
    rw [List.foldl_cons] at hb ⊢
    by_cases ha : ancestorRelated s.nodes a.1 a.2 = true
    · have hstep : passStep padding (s, false) a = (s, false) := by
        unfold passStep
        simp [ha]
      rw [hstep] at hb ⊢
      obtain ⟨h1, h2⟩ := ih s hb
      exact ⟨h1, fun pr hpr => by
        cases List.mem_cons.mp hpr with
        | inl he => exact he ▸ Or.inl ha
        | inr ht => exact h2 pr ht⟩
    · have haf : ancestorRelated s.nodes a.1 a.2 = false := by
        cases hab : ancestorRelated s.nodes a.1 a.2
        · rfl
        · exact absurd hab ha
      cases hov : overlapOf s a.1 a.2 with
      | none =>
        have hstep : passStep padding (s, false) a = (s, false) := by
          unfold passStep
          simp [haf, hov]
        rw [hstep] at hb ⊢
        obtain ⟨h1, h2⟩ := ih s hb
        exact ⟨h1, fun pr hpr => by
          cases List.mem_cons.mp hpr with
          | inl he => exact he ▸ Or.inr hov
          | inr ht => exact h2 pr ht⟩
      | some ov =>
        exfalso
        have hstep : passStep padding (s, false) a =
            (separateNodes s a.1 a.2 ov padding, true) := by
          unfold passStep
          simp [haf, hov]
        rw [hstep] at hb
        rw [pass_fold_flag_true padding t _] at hb
        exact Bool.true_eq_false.mp hb

theorem onePass_false (s : CMState) (padding : Rat)
    (hb : (onePass s padding).2 = false) :
    (onePass s padding).1 = s ∧ hasOverlaps s = false := by
  obtain ⟨h1, h2⟩ := pass_fold_false padding (pairsOf (visibleNonParentIds s)) s hb
  refine ⟨h1, ?_⟩
  unfold hasOverlaps
  rw [List.any_eq_false]
  intro pr hpr
  cases h2 pr hpr with
  | inl ha => simp [ha]
  | inr ho => simp [ho]

theorem resolveAux_le (padding : Rat) (fuel : Nat) (s : CMState) :
    (resolveAux padding fuel s).2 ≤ fuel := by
  induction fuel generalizing s with
  | zero => exact Nat.le_refl 0
  | succ n ih =>
    unfold resolveAux
    by_cases h : (onePass s padding).2 = true
    · simp only [h, if_true]
      exact Nat.succ_le_succ (ih (onePass s padding).1)
    · have hf : (onePass s padding).2 = false := by
        cases hb : (onePass s padding).2
        · rfl
        · exact absurd hb h
      simp only [hf, Bool.false_eq_true, if_false]
      exact Nat.succ_le_succ (Nat.zero_le n)

theorem resolveAux_early_exit (padding : Rat) (fuel : Nat) (s : CMState)
    (h : (resolveAux padding fuel s).2 < fuel) :
    hasOverlaps (resolveAux padding fuel s).1 = false := by
  induction fuel generalizing s with
  | zero => exact absurd h (Nat.not_lt_zero _)
  | succ n ih =>
    unfold resolveAux at h ⊢
    by_cases hp : (onePass s padding).2 = true
    · simp only [hp, if_true] at h ⊢
      exact ih (onePass s padding).1 (Nat.lt_of_succ_lt_succ h)
    · have hf : (onePass s padding).2 = false := by
        cases hb : (onePass s padding).2
        · rfl
        · exact absurd hb hp
      simp only [hf, Bool.false_eq_true, if_false]
      obtain ⟨h1, h2⟩ := onePass_false s padding hf
      rw [h1]
      exact h2

theorem hasOverlaps_emitEvent (s : CMState) (e : String) :
    hasOverlaps (emitEvent s e) = hasOverlaps s := rfl

/-- Claim C8: outcome of resolveOverlaps. For every state and configured cap (the
source default is defaultMaxIterations = 50) and padding, either the call
returns true and hasOverlaps is false on the resulting state, or it returns
false, the while loop ran exactly the configured maximum number of passes,
overlaps remain in the resulting state, and the layout-reset-required
notification was emitted. Each pass separates every currently overlapping
non-ancestor pair once (passStep folded over the pair list) and the loop
stops at the first pass that found no overlap (resolveAux). -/
theorem claim8_resolve_overlaps_outcome (s : CMState) (maxIterations : Nat) (padding : Rat) :
    ((resolveOverlaps s maxIterations padding).2 = true ∧
      hasOverlaps (resolveOverlaps s maxIterations padding).1 = false) ∨
    ((resolveOverlaps s maxIterations padding).2 = false ∧
      (resolveAux padding maxIterations s).2 = maxIterations ∧
      hasOverlaps (resolveOverlaps s maxIterations padding).1 = true ∧
      layoutResetEv ∈ (resolveOverlaps s maxIterations padding).1.events) := by
  by_cases hc : (decide ((resolveAux padding maxIterations s).2 ≥ maxIterations) &&
      hasOverlaps (resolveAux padding maxIterations s).1) = true
  · right
    have hres : resolveOverlaps s maxIterations padding =
        (emitEvent (resolveAux padding maxIterations s).1 layoutResetEv, false) := by
      unfold resolveOverlaps
      simp only [hc, if_true]
    obtain ⟨hge, hov⟩ := Bool.and_eq_true_iff.mp hc
    have hge2 : (resolveAux padding maxIterations s).2 ≥ maxIterations :=
      of_decide_eq_true hge
    refine ⟨by rw [hres], Nat.le_antisymm (resolveAux_le padding maxIterations s) hge2, ?_, ?_⟩
    · rw [hres]
      rw [show (emitEvent (resolveAux padding maxIterations s).1 layoutResetEv, false).1 =
        emitEvent (resolveAux padding maxIterations s).1 layoutResetEv from rfl]
      rw [hasOverlaps_emitEvent]
      exact hov
    · rw [hres]
      exact List.mem_append.mpr (Or.inr (List.mem_singleton.mpr rfl))
  · left
    have hf : (decide ((resolveAux padding maxIterations s).2 ≥ maxIterations) &&
        hasOverlaps (resolveAux padding maxIterations s).1) = false := by
      cases hb : (decide ((resolveAux padding maxIterations s).2 ≥ maxIterations) &&
          hasOverlaps (resolveAux padding maxIterations s).1)
      · rfl
      · exact absurd hb hc
    have hres : resolveOverlaps s maxIterations padding =
        ((resolveAux padding maxIterations s).1, true) := by
      unfold resolveOverlaps
      simp only [hf, Bool.false_eq_true, if_false]
    refine ⟨by rw [hres], ?_⟩
    rw [hres]
    cases hov : hasOverlaps (resolveAux padding maxIterations s).1 with
    | false => rfl
    | true =>
      have hlt : (resolveAux padding maxIterations s).2 < maxIterations := by
        rcases Bool.and_eq_false_iff.mp hf with hd | hd
        · have := of_decide_eq_false hd
          exact Nat.lt_of_not_le this
        · rw [hov] at hd
          exact absurd hd (by simp)
      have := resolveAux_early_exit padding maxIterations s hlt
      rw [hov] at this
      exact absurd this (by simp)

/-! ### The classification loop of createProjections -/

/-- The edge is incident to at least one descendant. -/
def touchesAny (descIds : List String) (e : Edge) : Prop :=
  e.source ∈ descIds ∨ e.target ∈ descIds

/-- Both endpoints lie in the collapsing set (internal edge). -/
def bothIn (inSet : List String) (e : Edge) : Prop :=
  e.source ∈ inSet ∧ e.target ∈ inSet

/-- Exactly one endpoint lies in the collapsing set (boundary edge). -/
def oneIn (inSet : List String) (e : Edge) : Prop :=
  (e.source ∈ inSet ∧ e.target ∉ inSet) ∨ (e.source ∉ inSet ∧ e.target ∈ inSet)

instance (descIds : List String) (e : Edge) : Decidable (touchesAny descIds e) := by
  unfold touchesAny
  infer_instance

instance (inSet : List String) (e : Edge) : Decidable (bothIn inSet e) := by
  unfold bothIn
  infer_instance

instance (inSet : List String) (e : Edge) : Decidable (oneIn inSet e) := by
  unfold oneIn
  infer_instance

/-- Invariant of the classification accumulator: the internal and external
buckets hold exactly the right kind of seen edges, and every seen edge of the
graph is in the bucket its endpoints dictate. -/
def ClassInv (edges : List Edge) (inSet : List String) (descIds : List String)
    (acc : List String × List Edge × List Edge) : Prop :=
  (∀ e ∈ acc.2.1, e ∈ edges ∧ touchesAny descIds e ∧ bothIn inSet e) ∧
  (∀ e ∈ acc.2.2, e ∈ edges ∧ touchesAny descIds e ∧ oneIn inSet e) ∧
  (∀ e ∈ edges, e.id ∈ acc.1 →
    (bothIn inSet e → e ∈ acc.2.1) ∧ (oneIn inSet e → e ∈ acc.2.2))

theorem eq_of_mem_id_nodup {edges : List Edge}
    (hnd : (edges.map (fun e => e.id)).Nodup) {e1 e2 : Edge}
    (h1 : e1 ∈ edges) (h2 : e2 ∈ edges) (hid : e1.id = e2.id) : e1 = e2 :=
  List.inj_on_of_nodup_map hnd h1 h2 hid

theorem classifyStep_inv {edges : List Edge} {inSet descIds : List String}
    (hnd : (edges.map (fun e => e.id)).Nodup)
    {acc : List String × List Edge × List Edge}
    (hinv : ClassInv edges inSet descIds acc) {e0 : Edge} (he : e0 ∈ edges)
    (ht0 : touchesAny descIds e0) :
    ClassInv edges inSet descIds (classifyStep inSet acc e0) := by
  obtain ⟨hints, hexts, hseen3⟩ := hinv
  by_cases hseen : e0.id ∈ acc.1
  · unfold classifyStep
    rw [if_pos hseen]
    exact ⟨hints, hexts, hseen3⟩
  · have step3 : ∀ (ints exts : List Edge),
        (bothIn inSet e0 → e0 ∈ ints) → (oneIn inSet e0 → e0 ∈ exts) →
        (∀ e ∈ acc.2.1, e ∈ ints) → (∀ e ∈ acc.2.2, e ∈ exts) →
        (∀ e ∈ edges, e.id ∈ acc.1 ++ [e0.id] →
          (bothIn inSet e → e ∈ ints) ∧ (oneIn inSet e → e ∈ exts)) := by
      intro ints exts hb0 ho0 hsub1 hsub2 e hemem hid
      cases List.mem_append.mp hid with
      | inl hold =>
        obtain ⟨hb, ho⟩ := hseen3 e hemem hold
        exact ⟨fun h => hsub1 e (hb h), fun h => hsub2 e (ho h)⟩
      | inr hnew =>
        have : e = e0 :=
          eq_of_mem_id_nodup hnd hemem he (List.mem_singleton.mp hnew)
        subst this
        exact ⟨hb0, ho0⟩
    by_cases hs : e0.source ∈ inSet <;> by_cases ht : e0.target ∈ inSet
    · have hstep : classifyStep inSet acc e0 =
          (acc.1 ++ [e0.id], acc.2.1 ++ [e0], acc.2.2) := by
        unfold classifyStep
        simp [hseen, hs, ht]
      rw [hstep]
      refine ⟨?_, hexts, ?_⟩
      · intro e hmem
        cases List.mem_append.mp hmem with
        | inl hold => exact hints e hold
        | inr hnew =>
          rw [List.mem_singleton.mp hnew]
          exact ⟨he, ht0, hs, ht⟩
      · refine step3 _ _ (fun _ => List.mem_append.mpr (Or.inr (List.mem_singleton.mpr rfl)))
          (fun hone => ?_) (fun e hm => List.mem_append.mpr (Or.inl hm)) (fun e hm => hm)
        rcases hone with ⟨_, hno⟩ | ⟨hno, _⟩ <;> [exact absurd ht hno; exact absurd hs hno]
    · have hstep : classifyStep inSet acc e0 =
          (acc.1 ++ [e0.id], acc.2.1, acc.2.2 ++ [e0]) := by
        unfold classifyStep
        simp [hseen, hs, ht]
      rw [hstep]
      refine ⟨hints, ?_, ?_⟩
      · intro e hmem
        cases List.mem_append.mp hmem with
        | inl hold => exact hexts e hold
        | inr hnew =>
          rw [List.mem_singleton.mp hnew]
          exact ⟨he, ht0, Or.inl ⟨hs, ht⟩⟩
      · refine step3 _ _ (fun hboth => absurd hboth.2 ht)
          (fun _ => List.mem_append.mpr (Or.inr (List.mem_singleton.mpr rfl)))
          (fun e hm => hm) (fun e hm => List.mem_append.mpr (Or.inl hm))
    · have hstep : classifyStep inSet acc e0 =
          (acc.1 ++ [e0.id], acc.2.1, acc.2.2 ++ [e0]) := by
        unfold classifyStep
        simp [hseen, hs, ht]
      rw [hstep]
      refine ⟨hints, ?_, ?_⟩
      · intro e hmem
        cases List.mem_append.mp hmem with
        | inl hold => exact hexts e hold
        | inr hnew =>
          rw [List.mem_singleton.mp hnew]
          exact ⟨he, ht0, Or.inr ⟨hs, ht⟩⟩
      · refine step3 _ _ (fun hboth => absurd hboth.1 hs)
          (fun _ => List.mem_append.mpr (Or.inr (List.mem_singleton.mpr rfl)))
          (fun e hm => hm) (fun e hm => List.mem_append.mpr (Or.inl hm))
    · have hstep : classifyStep inSet acc e0 =
          (acc.1 ++ [e0.id], acc.2.1, acc.2.2) := by
        unfold classifyStep
        simp [hseen, hs, ht]
      rw [hstep]
      refine ⟨hints, hexts, ?_⟩
      refine step3 _ _ (fun hboth => absurd hboth.1 hs) (fun hone => ?_)
        (fun e hm => hm) (fun e hm => hm)
      rcases hone with ⟨hy, _⟩ | ⟨_, hy⟩ <;> [exact absurd hy hs; exact absurd hy ht]

theorem classifyStep_seen_mono (inSet : List String)
    (acc : List String × List Edge × List Edge) (e : Edge) (x : String)
    (hx : x ∈ acc.1) : x ∈ (classifyStep inSet acc e).1 := by
  unfold classifyStep
  by_cases hseen : e.id ∈ acc.1
  · rw [if_pos hseen]
    exact hx
  · rw [if_neg hseen]
    by_cases hs : e.source ∈ inSet <;> by_cases ht : e.target ∈ inSet <;>
      simp [hs, ht, List.mem_append, hx]

theorem classify_fold_seen_mono (inSet : List String) (l : List Edge)
    (acc : List String × List Edge × List Edge) (x : String) (hx : x ∈ acc.1) :
    x ∈ (l.foldl (classifyStep inSet) acc).1 := by
  induction l generalizing acc with
  | nil => exact hx
  | cons a t ih =>
    rw [List.foldl_cons]
    exact ih _ (classifyStep_seen_mono inSet acc a x hx)

theorem classifyStep_seen_self (inSet : List String)
    (acc : List String × List Edge × List Edge) (e : Edge) :
    e.id ∈ (classifyStep inSet acc e).1 := by
  unfold classifyStep
  by_cases hseen : e.id ∈ acc.1
  · rw [if_pos hseen]
    exact hseen
  · rw [if_neg hseen]
    by_cases hs : e.source ∈ inSet <;> by_cases ht : e.target ∈ inSet <;>
      simp [hs, ht, List.mem_append]

theorem classify_fold_covers (inSet : List String) (l : List Edge)
    (acc : List String × List Edge × List Edge) :
    ∀ e ∈ l, e.id ∈ (l.foldl (classifyStep inSet) acc).1 := by
  induction l generalizing acc with
  | nil => exact fun e he => absurd he (List.not_mem_nil e)
  | cons a t ih =>
    intro e he
    rw [List.foldl_cons]
    cases List.mem_cons.mp he with
    | inl heq =>
      subst heq
      exact classify_fold_seen_mono inSet t _ e.id (classifyStep_seen_self inSet acc e)
    | inr ht => exact ih _ e ht

theorem classify_fold_inv {edges : List Edge} {inSet descIds : List String}
    (hnd : (edges.map (fun e => e.id)).Nodup) (l : List Edge)
    (hl : ∀ e ∈ l, e ∈ edges ∧ touchesAny descIds e)
    (acc : List String × List Edge × List Edge)
    (hinv : ClassInv edges inSet descIds acc) :
    ClassInv edges inSet descIds (l.foldl (classifyStep inSet) acc) := by
  induction l generalizing acc with
  | nil => exact hinv
  | cons a t ih =>
    rw [List.foldl_cons]
    exact ih (fun e he => hl e (List.mem_cons_of_mem a he)) _
      (classifyStep_inv hnd hinv (hl a (List.mem_cons_self a t)).1
        (hl a (List.mem_cons_self a t)).2)

theorem mem_connectedEdges {edges : List Edge} {i : String} {e : Edge} :
    e ∈ connectedEdges edges i ↔ e ∈ edges ∧ (e.source = i ∨ e.target = i) := by
  unfold connectedEdges
  simp

theorem classify_outer_inv {edges : List Edge} {inSet full : List String}
    (hnd : (edges.map (fun e => e.id)).Nodup) (l : List String)
    (hev : ∀ d ∈ l, d ∈ full) (acc : List String × List Edge × List Edge)
    (hinv : ClassInv edges inSet full acc) :
    ClassInv edges inSet full
      (l.foldl (fun acc d => (connectedEdges edges d).foldl (classifyStep inSet) acc) acc) := by
  induction l generalizing acc with
  | nil => exact hinv
  | cons d t ih =>
    rw [List.foldl_cons]
    refine ih (fun q hq => hev q (List.mem_cons_of_mem d hq)) _
      (classify_fold_inv hnd _ (fun e he => ?_) acc hinv)
    obtain ⟨he1, he2⟩ := mem_connectedEdges.mp he
    refine ⟨he1, ?_⟩
    have hd : d ∈ full := hev d (List.mem_cons_self d t)
    cases he2 with
    | inl hsrc => exact Or.inl (hsrc ▸ hd)
    | inr htgt => exact Or.inr (htgt ▸ hd)

theorem classifyEdges_inv {edges : List Edge} {inSet descIds : List String}
    (hnd : (edges.map (fun e => e.id)).Nodup) :
    ClassInv edges inSet descIds (classifyEdges edges inSet descIds) := by
  unfold classifyEdges
  refine classify_outer_inv hnd descIds (fun d hd => hd) ([], [], [])
    ⟨fun e he => absurd he (List.not_mem_nil e),
     fun e he => absurd he (List.not_mem_nil e),
     fun e _ hid => absurd hid (List.not_mem_nil _)⟩

theorem classify_outer_seen_mono {edges : List Edge} {inSet : List String}
    (l : List String) (acc : List String × List Edge × List Edge) (x : String)
    (hx : x ∈ acc.1) :
    x ∈ (l.foldl (fun acc d =>
      (connectedEdges edges d).foldl (classifyStep inSet) acc) acc).1 := by
  induction l generalizing acc with
  | nil => exact hx
  | cons d t ih =>
    rw [List.foldl_cons]
    exact ih _ (classify_fold_seen_mono inSet _ acc x hx)

theorem classifyEdges_covers {edges : List Edge} {inSet descIds : List String} :
    ∀ d ∈ descIds, ∀ e ∈ connectedEdges edges d,
      e.id ∈ (classifyEdges edges inSet descIds).1 := by
  unfold classifyEdges
  generalize hacc : (([], [], []) : List String × List Edge × List Edge) = acc0
  clear hacc
  induction descIds generalizing acc0 with
  | nil => exact fun d hd => absurd hd (List.not_mem_nil d)
  | cons d t ih =>
    intro q hq e he
    rw [List.foldl_cons]
    cases List.mem_cons.mp hq with
    | inl heq =>
      subst heq
      exact classify_outer_seen_mono t _ e.id (classify_fold_covers inSet _ acc0 e he)
    | inr hqt => exact ih _ q hqt e he

/-- Completeness of the classification: every graph edge incident to a
descendant lands in the bucket its endpoint membership dictates. -/
theorem classifyEdges_complete_both {edges : List Edge} {inSet descIds : List String}
    (hnd : (edges.map (fun e => e.id)).Nodup) {e : Edge} (he : e ∈ edges)
    (ht : touchesAny descIds e) (hb : bothIn inSet e) :
    e ∈ (classifyEdges edges inSet descIds).2.1 := by
  have hinv := @classifyEdges_inv edges inSet descIds hnd
  have hseen : e.id ∈ (classifyEdges edges inSet descIds).1 := by
    cases ht with
    | inl hs =>
      exact classifyEdges_covers e.source hs e
        (mem_connectedEdges.mpr ⟨he, Or.inl rfl⟩)
    | inr htg =>
      exact classifyEdges_covers e.target htg e
        (mem_connectedEdges.mpr ⟨he, Or.inr rfl⟩)
  exact (hinv.2.2 e he hseen).1 hb

theorem classifyEdges_complete_one {edges : List Edge} {inSet descIds : List String}
    (hnd : (edges.map (fun e => e.id)).Nodup) {e : Edge} (he : e ∈ edges)
    (ht : touchesAny descIds e) (ho : oneIn inSet e) :
    e ∈ (classifyEdges edges inSet descIds).2.2 := by
  have hinv := @classifyEdges_inv edges inSet descIds hnd
  have hseen : e.id ∈ (classifyEdges edges inSet descIds).1 := by
    cases ht with
    | inl hs =>
      exact classifyEdges_covers e.source hs e
        (mem_connectedEdges.mpr ⟨he, Or.inl rfl⟩)
    | inr htg =>
      exact classifyEdges_covers e.target htg e
        (mem_connectedEdges.mpr ⟨he, Or.inr rfl⟩)
  exact (hinv.2.2 e he hseen).2 ho

/-! ### Membership characterizations -/

theorem mem_descendantIds {nodes : List Node} {pid x : String} :
    x ∈ descendantIds nodes pid ↔
      ∃ n ∈ nodes, n.id = x ∧ pid ∈ ancestorChain nodes nodes.length x := by
  unfold descendantIds
  constructor
  · intro h
    obtain ⟨n, hn, hid⟩ := List.mem_map.mp h
    obtain ⟨hn1, hn2⟩ := List.mem_filter.mp hn
    refine ⟨n, hn1, hid, ?_⟩
    rw [← hid]
    exact of_decide_eq_true hn2
  · intro ⟨n, hn, hid, hch⟩
    refine List.mem_map.mpr ⟨n, List.mem_filter.mpr ⟨hn, ?_⟩, hid⟩
    rw [hid]
    exact decide_eq_true hch

theorem isParentNode_iff {nodes : List Node} {pid : String} :
    isParentNode nodes pid = true ↔ ∃ n ∈ nodes, n.parent = some pid := by
  unfold isParentNode
  rw [List.any_eq_true]
  constructor
  · intro ⟨n, hn, hd⟩
    exact ⟨n, hn, of_decide_eq_true hd⟩
  · intro ⟨n, hn, hd⟩
    exact ⟨n, hn, decide_eq_true hd⟩

theorem mem_touchingEdgeIds {edges : List Edge} {descIds : List String} {x : String} :
    x ∈ touchingEdgeIds edges descIds ↔
      ∃ e ∈ edges, e.id = x ∧ touchesAny descIds e := by
  unfold touchingEdgeIds touchesAny
  constructor
  · intro h
    obtain ⟨e, he, hid⟩ := List.mem_map.mp h
    obtain ⟨he1, he2⟩ := List.mem_filter.mp he
    refine ⟨e, he1, hid, ?_⟩
    rcases Bool.or_eq_true_iff.mp he2 with hd | hd
    · exact Or.inl (of_decide_eq_true hd)
    · exact Or.inr (of_decide_eq_true hd)
  · intro ⟨e, he, hid, ht⟩
    refine List.mem_map.mpr ⟨e, List.mem_filter.mpr ⟨he, ?_⟩, hid⟩
    cases ht with
    | inl hd => exact Bool.or_eq_true_iff.mpr (Or.inl (decide_eq_true hd))
    | inr hd => exact Bool.or_eq_true_iff.mpr (Or.inr (decide_eq_true hd))

/-- Inversion of a successful collapse. -/
theorem collapse_succeeded {s : CMState} {P : String}
    (h : (collapse s P).2 = true) :
    isParentNode s.nodes P = true ∧ P ∉ s.collapsedIds ∧
    (collapse s P).1 = collapseBody s P := by
  cases hp : isParentNode s.nodes P with
  | false =>
    rw [collapse_not_parent s P hp] at h
    exact absurd h (by simp)
  | true =>
    by_cases hc : P ∈ s.collapsedIds
    · rw [collapse_already s P hc] at h
      exact absurd h (by simp)
    · rw [collapse_success s P hp hc]
      exact ⟨rfl, hc, rfl⟩

/-! ### C3 amended and C4 amended -/

/-- Claim C3 (amended): during a successful collapse of P, every edge incident to a
descendant of P (the classification loop only visits descendants' edges, so
edges whose sole inside endpoint is P itself stay untouched) with exactly one
endpoint inside D ∪ \x7bP\x7d is hidden and recorded among the original edge
ids replaced by P's projections. -/
theorem claim3_boundary_edges_hidden_and_recorded (s : CMState) (P : String)
    (hw : Wellformed s) (hp : isParentNode s.nodes P = true)
    (hc : P ∉ s.collapsedIds) (e : Edge) (he : e ∈ s.edges)
    (ht : touchesAny (descendantIds s.nodes P) e)
    (ho : oneIn (descendantIds s.nodes P ++ [P]) e) :
    isHiddenEle (collapse s P).1 e.id = true ∧
    ∃ pr, List.lookup P (collapse s P).1.projectionEdgesMap = some pr ∧ e.id ∈ pr.2 := by
  rw [collapse_success s P hp hc]
  constructor
  · unfold isHiddenEle
    refine decide_eq_true ((mem_collapseBody_hiddenIds s P e.id).mpr ?_)
    exact Or.inr (Or.inr (Or.inl (mem_touchingEdgeIds.mpr ⟨e, he, rfl, ht⟩)))
  · rw [collapseBody_projectionEdgesMap, lookup_mapSet]
    refine ⟨_, if_pos rfl, ?_⟩
    have hext := @classifyEdges_complete_one s.edges (descendantIds s.nodes P ++ [P])
      (descendantIds s.nodes P) hw.2.1 e he ht ho
    exact List.mem_map.mpr ⟨e, hext, rfl⟩

/-- Witness for the amended C3 on the round-trip graph: the boundary edge e1
from c1 to X is hidden by collapse(P) and recorded among the replaced
originals. -/
theorem claim3_boundary_edges_witness :
    Wellformed rt0 ∧
    touchesAny (descendantIds rt0.nodes ("P")) (⟨"e1", "c1", "X", false⟩ : Edge) ∧
    oneIn (descendantIds rt0.nodes ("P") ++ [("P")]) (⟨"e1", "c1", "X", false⟩ : Edge) ∧
    (isHiddenEle (collapse rt0 ("P")).1 ("e1") = true ∧
     ∃ pr, List.lookup ("P") (collapse rt0 ("P")).1.projectionEdgesMap = some pr ∧
       ("e1") ∈ pr.2) := by
  refine ⟨by decide, by decide, by decide, ?_⟩
  exact claim3_boundary_edges_hidden_and_recorded rt0 ("P") (by decide) (by decide)
    (by decide) (⟨"e1", "c1", "X", false⟩ : Edge) (by decide) (by decide) (by decide)

/-- Claim C4 (amended): during a successful collapse of P, every edge incident to a
descendant whose two endpoints both lie inside D ∪ \x7bP\x7d is hidden and no
projection is created for it: its id is not among the recorded original edge
ids that P's projections replace. (A self-loop sitting directly on P touches
no descendant and is neither hidden nor projected.) -/
theorem claim4_internal_edges_hidden_not_projected (s : CMState) (P : String)
    (hw : Wellformed s) (hp : isParentNode s.nodes P = true)
    (hc : P ∉ s.collapsedIds) (e : Edge) (he : e ∈ s.edges)
    (ht : touchesAny (descendantIds s.nodes P) e)
    (hb : bothIn (descendantIds s.nodes P ++ [P]) e) :
    isHiddenEle (collapse s P).1 e.id = true ∧
    ∃ pr, List.lookup P (collapse s P).1.projectionEdgesMap = some pr ∧ e.id ∉ pr.2 := by
  rw [collapse_success s P hp hc]
  constructor
  · unfold isHiddenEle
    refine decide_eq_true ((mem_collapseBody_hiddenIds s P e.id).mpr ?_)
    exact Or.inr (Or.inr (Or.inl (mem_touchingEdgeIds.mpr ⟨e, he, rfl, ht⟩)))
  · rw [collapseBody_projectionEdgesMap, lookup_mapSet]
    refine ⟨_, if_pos rfl, ?_⟩
    intro hmem
    obtain ⟨e2, he2, hid⟩ := List.mem_map.mp hmem
    have hinv := @classifyEdges_inv s.edges (descendantIds s.nodes P ++ [P])
      (descendantIds s.nodes P) hw.2.1
    obtain ⟨he2edges, _, he2one⟩ := hinv.2.1 e2 he2
    have : e2 = e := eq_of_mem_id_nodup hw.2.1 he2edges he hid
    subst this
    rcases he2one with ⟨_, hno⟩ | ⟨hno, _⟩
    · exact hno hb.2
    · exact hno hb.1

def itNodes : List Node :=
  [exN ("Q") none 0 0, exN ("d1") (some ("Q")) 1 1, exN ("d2") (some ("Q")) 2 2]

def itEdges : List Edge := [⟨"ie", "d1", "d2", false⟩]

def it0 : CMState := initState itNodes itEdges

/-- Witness for the amended C4: the internal edge ie between the two children
of Q is hidden by collapse(Q) and not recorded for projection. -/
theorem claim4_internal_edges_witness :
    Wellformed it0 ∧
    bothIn (descendantIds it0.nodes ("Q") ++ [("Q")]) (⟨"ie", "d1", "d2", false⟩ : Edge) ∧
    (isHiddenEle (collapse it0 ("Q")).1 ("ie") = true ∧
     ∃ pr, List.lookup ("Q") (collapse it0 ("Q")).1.projectionEdgesMap = some pr ∧
       ("ie") ∉ pr.2) := by
  refine ⟨by decide, by decide, ?_⟩
  exact claim4_internal_edges_hidden_not_projected it0 ("Q") (by decide) (by decide)
    (by decide) (⟨"ie", "d1", "d2", false⟩ : Edge) (by decide) (by decide) (by decide)

/-! ### C10 amended -/

/-- Claim C10 (amended): a successful collapse(P) adds to the hidden set only
descendants of P and edges incident to a descendant of P — it never adds P
itself — so whenever P was not already hidden before the call (it can be, if
P sits inside a previously collapsed ancestor), isHidden(P) is false
immediately after collapse(P). -/
theorem claim10_collapse_never_hides_parent (s : CMState) (P : String)
    (hw : Wellformed s) (hsucc : (collapse s P).2 = true) :
    (∀ x ∈ (collapse s P).1.hiddenIds,
      x ∈ s.hiddenIds ∨ x ∈ descendantIds s.nodes P ∨
      ∃ e ∈ s.edges, e.id = x ∧ touchesAny (descendantIds s.nodes P) e) ∧
    (P ∉ s.hiddenIds → isHiddenEle (collapse s P).1 P = false) := by
  obtain ⟨hp, hc, hbody⟩ := collapse_succeeded hsucc
  rw [hbody]
  have hchar : ∀ x ∈ (collapseBody s P).hiddenIds,
      x ∈ s.hiddenIds ∨ x ∈ descendantIds s.nodes P ∨
      ∃ e ∈ s.edges, e.id = x ∧ touchesAny (descendantIds s.nodes P) e := by
    intro x hx
    rcases (mem_collapseBody_hiddenIds s P x).mp hx with h | h | h | h
    · exact Or.inl h
    · exact Or.inr (Or.inl h)
    · exact Or.inr (Or.inr (mem_touchingEdgeIds.mp h))
    · obtain ⟨e2, he2, hid⟩ := List.mem_map.mp h
      have hinv := @classifyEdges_inv s.edges (descendantIds s.nodes P ++ [P])
        (descendantIds s.nodes P) hw.2.1
      obtain ⟨he2edges, he2touch, _⟩ := hinv.1 e2 he2
      exact Or.inr (Or.inr ⟨e2, he2edges, hid, he2touch⟩)
  refine ⟨hchar, fun hnotP => ?_⟩
  cases hb : isHiddenEle (collapseBody s P) P with
  | false => rfl
  | true =>
    exfalso
    have hmem : P ∈ (collapseBody s P).hiddenIds := of_decide_eq_true hb
    rcases hchar P hmem with h | h | h
    · exact hnotP h
    · obtain ⟨n, hn, hid, hch⟩ := mem_descendantIds.mp h
      have hacyc := hw.2.2.2.1 n hn
      rw [hid] at hacyc
      exact hacyc hch
    · obtain ⟨e, he, hid, _⟩ := h
      obtain ⟨child, hchild, hpar⟩ := isParentNode_iff.mp hp
      have hPid : ∃ m ∈ s.nodes, m.id = P := by
        have h2 := hw.2.2.1 child hchild P (by rw [hpar]; exact List.mem_singleton.mpr rfl)
        obtain ⟨mid, hmid1, hmid2⟩ := List.mem_map.mp h2
        exact ⟨mid, hmid1, hmid2⟩
      obtain ⟨m, hm, hmid⟩ := hPid
      exact hw.2.2.2.2 m hm e he (by rw [hmid, hid])
/-- Witness for the amended C10: collapsing P in the round-trip graph leaves
P itself visible. -/
theorem claim10_collapse_never_hides_parent_witness :
    Wellformed rt0 ∧ (collapse rt0 ("P")).2 = true ∧ ("P") ∉ rt0.hiddenIds ∧
    isHiddenEle (collapse rt0 ("P")).1 ("P") = false := by
  refine ⟨by decide, by decide, by decide, ?_⟩
  exact (claim10_collapse_never_hides_parent rt0 ("P") (by decide) (by decide)).2 (by decide)

/-! ### Lemmas about getNode and the ancestor chain -/

theorem getNode_mem {nodes : List Node} {i : String} {n : Node}
    (h : getNode nodes i = some n) : n ∈ nodes ∧ n.id = i := by
  unfold getNode at h
  have h2 := List.find?_some h
  exact ⟨List.mem_of_find?_eq_some h, of_decide_eq_true h2⟩

theorem getNode_isSome_of_mem {nodes : List Node} {n : Node} (h : n ∈ nodes) :
    ∃ m, getNode nodes n.id = some m := by
  cases hg : getNode nodes n.id with
  | some m => exact ⟨m, rfl⟩
  | none =>
    exfalso
    unfold getNode at hg
    have := List.find?_eq_none.mp hg n h
    simp at this

theorem getNode_self_of_nodup {nodes : List Node}
    (hnd : (nodes.map (fun n => n.id)).Nodup) {n : Node} (h : n ∈ nodes) :
    getNode nodes n.id = some n := by
  obtain ⟨m, hm⟩ := getNode_isSome_of_mem h
  obtain ⟨hmem, hid⟩ := getNode_mem hm
  rw [hm]
  rw [List.inj_on_of_nodup_map hnd hmem h hid]

theorem ancestorChain_succ {nodes : List Node} {i p : String} {n : Node} (fuel : Nat)
    (hg : getNode nodes i = some n) (hp : n.parent = some p) :
    ancestorChain nodes (fuel + 1) i = p :: ancestorChain nodes fuel p := by
  simp only [ancestorChain, hg, hp]

theorem ancestorChain_none {nodes : List Node} {i : String} {n : Node} (fuel : Nat)
    (hg : getNode nodes i = some n) (hp : n.parent = none) :
    ancestorChain nodes (fuel + 1) i = [] := by
  simp only [ancestorChain, hg, hp]

theorem ancestorChain_no_node {nodes : List Node} {i : String} (fuel : Nat)
    (hg : getNode nodes i = none) :
    ancestorChain nodes (fuel + 1) i = [] := by
  simp only [ancestorChain, hg]

theorem ancestorChain_mono (nodes : List Node) :
    ∀ fuel1 fuel2 : Nat, fuel1 ≤ fuel2 → ∀ x p : String,
      p ∈ ancestorChain nodes fuel1 x → p ∈ ancestorChain nodes fuel2 x := by
  intro fuel1
  induction fuel1 with
  | zero => intro fuel2 _ x p hp; exact absurd hp (List.not_mem_nil p)
  | succ k ih =>
    intro fuel2 hle x p hp
    obtain ⟨m, hm⟩ : ∃ m, fuel2 = m + 1 := by
      cases fuel2 with
      | zero => exact absurd hle (by omega)
      | succ m => exact ⟨m, rfl⟩
    subst hm
    cases hg : getNode nodes x with
    | none =>
      rw [ancestorChain_no_node k hg] at hp
      exact absurd hp (List.not_mem_nil p)
    | some n =>
      cases hpar : n.parent with
      | none =>
        rw [ancestorChain_none k hg hpar] at hp
        exact absurd hp (List.not_mem_nil p)
      | some q =>
        rw [ancestorChain_succ k hg hpar] at hp
        rw [ancestorChain_succ m hg hpar]
        cases List.mem_cons.mp hp with
        | inl he => exact List.mem_cons.mpr (Or.inl he)
        | inr ht =>
          exact List.mem_cons.mpr (Or.inr (ih m (by omega) q p ht))

/-- A direct child of pid is a descendant of pid. -/
theorem child_mem_descendantIds {nodes : List Node}
    (hnd : (nodes.map (fun n => n.id)).Nodup) {pid : String} {c : Node}
    (hc : c ∈ childrenOf nodes pid) : c.id ∈ descendantIds nodes pid := by
  obtain ⟨hmem, hdec⟩ := List.mem_filter.mp hc
  have hpar : c.parent = some pid := of_decide_eq_true hdec
  refine mem_descendantIds.mpr ⟨c, hmem, rfl, ?_⟩
  obtain ⟨m, hm⟩ : ∃ m, nodes.length = m + 1 := by
    cases hl : nodes.length with
    | zero =>
      rw [List.length_eq_zero] at hl
      subst hl
      exact absurd hmem (List.not_mem_nil c)
    | succ m => exact ⟨m, rfl⟩
  rw [hm, ancestorChain_succ m (getNode_self_of_nodup hnd hmem) hpar]
  exact List.mem_cons_self pid _

/-! ### Position lemmas for setNodePos and the restore fold -/

theorem getNode_setpos_other (nodes : List Node) (i j : String) (p : Rat × Rat)
    (hij : j ≠ i) :
    getNode (nodes.map (fun n => if n.id = i then { n with x := p.1, y := p.2 } else n)) j =
      getNode nodes j := by
  induction nodes with
  | nil => rfl
  | cons a t ih =>
    by_cases ha : a.id = i
    · have hid : (if a.id = i then { a with x := p.1, y := p.2 } else a).id = a.id := by
        rw [if_pos ha]
      unfold getNode
      rw [List.map_cons, List.find?_cons, List.find?_cons, hid]
      have hnotj : decide (a.id = j) = false := by
        rw [ha]
        exact decide_eq_false (fun he => hij he.symm)
      rw [hnotj]
      exact ih
    · have heq : (if a.id = i then { a with x := p.1, y := p.2 } else a) = a := if_neg ha
      unfold getNode
      rw [List.map_cons, List.find?_cons, List.find?_cons, heq]
      cases hd : decide (a.id = j) with
      | true => rfl
      | false => exact ih

theorem posOf_setpos_other (s : CMState) (i j : String) (p : Rat × Rat) (hij : j ≠ i) :
    posOf (setNodePos s i p).nodes j = posOf s.nodes j := by
  unfold setNodePos posOf
  rw [getNode_setpos_other s.nodes i j p hij]

theorem getNode_setpos_self {nodes : List Node} {i : String} {n : Node} (p : Rat × Rat)
    (hg : getNode nodes i = some n) :
    getNode (nodes.map (fun m => if m.id = i then { m with x := p.1, y := p.2 } else m)) i =
      some { n with x := p.1, y := p.2 } := by
  induction nodes with
  | nil => exact absurd hg (by simp [getNode])
  | cons a t ih =>
    unfold getNode at hg ⊢
    rw [List.find?_cons] at hg
    rw [List.map_cons, List.find?_cons]
    cases hd : decide (a.id = i) with
    | true =>
      rw [hd] at hg
      have ha : a.id = i := of_decide_eq_true hd
      have : (if a.id = i then { a with x := p.1, y := p.2 } else a) =
          { a with x := p.1, y := p.2 } := if_pos ha
      rw [this]
      have hid : ({ a with x := p.1, y := p.2 } : Node).id = a.id := rfl
      rw [show decide (({ a with x := p.1, y := p.2 } : Node).id = i) = true from
        hid ▸ hd]
      cases hg
      rfl
    | false =>
      rw [hd] at hg
      have ha : ¬ a.id = i := of_decide_eq_false hd
      have : (if a.id = i then { a with x := p.1, y := p.2 } else a) = a := if_neg ha
      rw [this, hd]
      exact ih hg

theorem posOf_setpos_self {s : CMState} {i : String} {n : Node} (p : Rat × Rat)
    (hg : getNode s.nodes i = some n) :
    posOf (setNodePos s i p).nodes i = p := by
  unfold setNodePos posOf
  rw [getNode_setpos_self p hg]

theorem getNode_setpos_isSome (t : CMState) (i j : String) (p : Rat × Rat)
    (h : ∃ n, getNode t.nodes j = some n) :
    ∃ n, getNode (setNodePos t i p).nodes j = some n := by
  obtain ⟨n, hn⟩ := h
  by_cases hij : j = i
  · subst hij
    exact ⟨_, by unfold setNodePos; exact getNode_setpos_self p hn⟩
  · exact ⟨n, by unfold setNodePos; rw [getNode_setpos_other t.nodes i j p hij]; exact hn⟩

theorem restoreStep_isSome (positions : List (String × (Rat × Rat))) (pp : Rat × Rat)
    (t : CMState) (c : Node) (j : String) (h : ∃ n, getNode t.nodes j = some n) :
    ∃ n, getNode (restoreStep positions pp t c).nodes j = some n := by
  unfold restoreStep
  cases List.lookup c.id positions with
  | none => exact h
  | some lp => exact getNode_setpos_isSome t c.id j _ h

theorem restore_fold_pos_outside (positions : List (String × (Rat × Rat))) (pp : Rat × Rat)
    (l : List Node) (t : CMState) (j : String) (hl : ∀ c ∈ l, c.id ≠ j) :
    posOf ((l.foldl (restoreStep positions pp) t)).nodes j = posOf t.nodes j := by
  induction l generalizing t with
  | nil => rfl
  | cons a r ih =>
    rw [List.foldl_cons]
    rw [ih _ (fun c hc => hl c (List.mem_cons_of_mem a hc))]
    unfold restoreStep
    cases List.lookup a.id positions with
    | none => rfl
    | some lp =>
      exact posOf_setpos_other t a.id j _ (fun he => hl a (List.mem_cons_self a r) he.symm)

theorem restore_fold_pos (positions : List (String × (Rat × Rat))) (pp : Rat × Rat)
    (l : List Node) (t : CMState) (hnd : (l.map (fun n => n.id)).Nodup)
    (hex : ∀ c ∈ l, ∃ n, getNode t.nodes c.id = some n) :
    ∀ c ∈ l, ∀ lp, List.lookup c.id positions = some lp →
      posOf ((l.foldl (restoreStep positions pp) t)).nodes c.id =
        (pp.1 + lp.1, pp.2 + lp.2) := by
  induction l generalizing t with
  | nil => exact fun c hc => absurd hc (List.not_mem_nil c)
  | cons a r ih =>
    intro c hc lp hlp
    rw [List.foldl_cons]
    cases List.mem_cons.mp hc with
    | inl heq =>
      subst heq
      have hstep : posOf (restoreStep positions pp t c).nodes c.id =
          (pp.1 + lp.1, pp.2 + lp.2) := by
        unfold restoreStep
        rw [hlp]
        obtain ⟨n, hn⟩ := hex c (List.mem_cons_self c r)
        exact posOf_setpos_self _ hn
      rw [restore_fold_pos_outside positions pp r _ c.id (fun q hq he => ?_), hstep]
      have hnc := List.nodup_cons.mp hnd
      refine hnc.1 ?_
      refine List.mem_map.mpr ⟨q, hq, he⟩
    | inr hr =>
      refine ih _ (List.nodup_cons.mp hnd).2 (fun q hq => ?_) c hr lp hlp
      exact restoreStep_isSome positions pp t a q.id (hex q (List.mem_cons_of_mem a hq))

/-! ### The expand show loop -/

/-- The condition under which the show loop un-hides a recorded descendant:
it still exists, and its direct parent is absent, the expanding node itself,
or not collapsed. -/
def OkToShow (nodeId : String) (nodes : List Node) (collapsed : List String)
    (d : String) : Prop :=
  ∃ n, getNode nodes d = some n ∧
    (match n.parent with
     | none => True
     | some p => p = nodeId ∨ p ∉ collapsed)

theorem edge_show_fold_subset (l : List Edge) (u : CMState) (x : String)
    (h : x ∈ (l.foldl (fun u e =>
      if !(isHiddenEle u e.source) && !(isHiddenEle u e.target) && !e.isProjection
      then showElement u e.id else u) u).hiddenIds) : x ∈ u.hiddenIds := by
  induction l generalizing u with
  | nil => exact h
  | cons a r ih =>
    rw [List.foldl_cons] at h
    have h2 := ih _ h
    by_cases hc : (!(isHiddenEle u a.source) && !(isHiddenEle u a.target) &&
        !a.isProjection) = true
    · rw [if_pos hc] at h2
      exact (mem_setDel.mp h2).1
    · rw [if_neg hc] at h2
      exact h2

theorem show_fold_not_mem (nodeId : String) (l : List String) (t : CMState) (x : String)
    (hx : x ∉ t.hiddenIds) : x ∉ (l.foldl (showStep nodeId) t).hiddenIds := by
  induction l generalizing t with
  | nil => exact hx
  | cons a r ih =>
    rw [List.foldl_cons]
    refine ih _ (fun hmem => hx ?_)
    exact showStep_hiddenIds_subset nodeId t a x hmem

theorem showStep_removes (nodeId : String) (t : CMState) (d : String)
    (hok : OkToShow nodeId t.nodes t.collapsedIds d) :
    d ∉ (showStep nodeId t d).hiddenIds := by
  obtain ⟨n, hg, hcond⟩ := hok
  have hokb : (match n.parent with
      | none => true
      | some p => decide (p = nodeId) || !(decide (p ∈ t.collapsedIds))) = true := by
    cases hpar : n.parent with
    | none => rfl
    | some p =>
      rw [hpar] at hcond
      cases hcond with
      | inl he => simp [he]
      | inr hne => simp [hne]
  have hstep : showStep nodeId t d =
      (connectedEdges (showElement t d).edges d).foldl (fun u e =>
        if !(isHiddenEle u e.source) && !(isHiddenEle u e.target) && !e.isProjection
        then showElement u e.id else u) (showElement t d) := by
    simp only [showStep, hg, hokb, if_true]
  rw [hstep]
  intro hmem
  have h2 := edge_show_fold_subset _ _ _ hmem
  exact (mem_setDel.mp h2).2 rfl

theorem show_fold_removes (nodeId : String) (l : List String) (t : CMState)
    (hok : ∀ d ∈ l, OkToShow nodeId t.nodes t.collapsedIds d) :
    ∀ d ∈ l, d ∉ (l.foldl (showStep nodeId) t).hiddenIds := by
  induction l generalizing t with
  | nil => exact fun d hd => absurd hd (List.not_mem_nil d)
  | cons a r ih =>
    intro d hd
    rw [List.foldl_cons]
    have hfields : (showStep nodeId t a).nodes = t.nodes ∧
        (showStep nodeId t a).collapsedIds = t.collapsedIds :=
      ⟨showStep_nodes nodeId t a, showStep_collapsedIds nodeId t a⟩
    cases List.mem_cons.mp hd with
    | inl heq =>
      subst heq
      exact show_fold_not_mem nodeId r _ d
        (showStep_removes nodeId t d (hok d (List.mem_cons_self d r)))
    | inr hr =>
      refine ih _ (fun q hq => ?_) d hr
      rw [hfields.1, hfields.2]
      exact hok q (List.mem_cons_of_mem a hq)

theorem expandBody_hiddenIds (t : CMState) (n : String) :
    (expandBody t n).hiddenIds =
      (((List.lookup n t.hiddenElementsMap).getD []).foldl (showStep n) t).hiddenIds := by
  unfold expandBody
  simp only [emitEvent_hiddenIds]
  rw [restoreLocalPositions_hiddenIds, removeProjections_hiddenIds]

theorem expandBody_nodes (t : CMState) (n : String) :
    (expandBody t n).nodes =
      (restoreLocalPositions (removeProjections
        (((List.lookup n t.hiddenElementsMap).getD []).foldl (showStep n) t) n) n).nodes :=
  rfl

theorem restoreLocalPositions_nodes_eq {t : CMState} {n : String}
    {positions : List (String × (Rat × Rat))}
    (hl : List.lookup n t.savedPositionsMap = some positions) :
    (restoreLocalPositions t n).nodes =
      ((childrenOf t.nodes n).foldl (restoreStep positions (posOf t.nodes n)) t).nodes := by
  simp only [restoreLocalPositions, hl]

theorem show_fold_nodes (nodeId : String) (l : List String) (t : CMState) :
    (l.foldl (showStep nodeId) t).nodes = t.nodes :=
  foldl_proj (showStep nodeId) CMState.nodes (fun u d => showStep_nodes nodeId u d) l t

theorem show_fold_savedPositionsMap (nodeId : String) (l : List String) (t : CMState) :
    (l.foldl (showStep nodeId) t).savedPositionsMap = t.savedPositionsMap :=
  foldl_proj (showStep nodeId) CMState.savedPositionsMap
    (fun u d => showStep_savedPositionsMap nodeId u d) l t

/-- Claim C1: round trip. For a compound node P that is not collapsed and none of
whose descendants is separately collapsed, collapse(P) immediately followed by
expand(P) leaves every descendant of P un-hidden and returns every direct
child of P exactly to its pre-collapse position (exactly, because positions
are saved as offsets from P's position at collapse time and re-added to P's
unchanged position at expand time). -/
theorem claim1_round_trip (s : CMState) (P : String)
    (hw : Wellformed s)
    (hp : isParentNode s.nodes P = true)
    (hc : P ∉ s.collapsedIds)
    (hd : ∀ d ∈ descendantIds s.nodes P, d ∉ s.collapsedIds) :
    (∀ d ∈ descendantIds s.nodes P,
      isHiddenEle (expand (collapse s P).1 P).1 d = false) ∧
    (∀ c ∈ childrenOf s.nodes P,
      posOf (expand (collapse s P).1 P).1.nodes c.id = posOf s.nodes c.id) := by
  have hnd : (s.nodes.map (fun n => n.id)).Nodup := hw.1
  rw [collapse_success s P hp hc]
  have hs1nodes : (collapseBody s P).nodes = s.nodes := collapseBody_nodes s P
  have hs1coll : (collapseBody s P).collapsedIds = setAdd s.collapsedIds P :=
    collapseBody_collapsedIds s P
  have hPin : P ∈ (collapseBody s P).collapsedIds := by
    rw [hs1coll]
    exact mem_setAdd.mpr (Or.inr rfl)
  rw [expand_success _ P hPin]
  have hlook : List.lookup P (collapseBody s P).hiddenElementsMap =
      some (descendantIds s.nodes P) := by
    rw [collapseBody_hiddenElementsMap, lookup_mapSet]
    exact if_pos rfl
  have hok : ∀ d ∈ descendantIds s.nodes P,
      OkToShow P (collapseBody s P).nodes (collapseBody s P).collapsedIds d := by
    intro d hdm
    obtain ⟨n, hnmem, hnid, hch⟩ := mem_descendantIds.mp hdm
    have hg : getNode s.nodes d = some n := by
      rw [← hnid]
      exact getNode_self_of_nodup hnd hnmem
    rw [hs1nodes, hs1coll]
    refine ⟨n, hg, ?_⟩
    cases hpar : n.parent with
    | none => exact True.intro
    | some p =>
      by_cases hpP : p = P
      · exact Or.inl hpP
      · refine Or.inr (fun hmem => ?_)
        rcases mem_setAdd.mp hmem with hin | he
        · obtain ⟨m, hm⟩ : ∃ m, s.nodes.length = m + 1 := by
            cases hl : s.nodes.length with
            | zero =>
              rw [List.length_eq_zero] at hl
              rw [hl] at hnmem
              exact absurd hnmem (List.not_mem_nil n)
            | succ m => exact ⟨m, rfl⟩
          rw [hm, ancestorChain_succ m hg hpar] at hch
          have hPp : P ∈ ancestorChain s.nodes s.nodes.length p := by
            cases List.mem_cons.mp hch with
            | inl he2 => exact absurd he2.symm hpP
            | inr ht => exact ancestorChain_mono s.nodes m s.nodes.length (by omega) p P ht
          have hpid : p ∈ s.nodes.map (fun m2 => m2.id) := by
            refine hw.2.2.1 n hnmem p ?_
            rw [hpar]
            exact List.mem_singleton.mpr rfl
          obtain ⟨np, hnp, hnpid⟩ := List.mem_map.mp hpid
          have hpD : p ∈ descendantIds s.nodes P :=
            mem_descendantIds.mpr ⟨np, hnp, hnpid, hPp⟩
          exact hd p hpD hin
        · exact hpP he
  constructor
  · intro d hdm
    unfold isHiddenEle
    refine decide_eq_false ?_
    rw [expandBody_hiddenIds, hlook]
    exact show_fold_removes P (descendantIds s.nodes P) (collapseBody s P) hok d hdm
  · intro c hcm
    rw [expandBody_nodes, hlook]
    have hsP : (collapseBody s P).savedPositionsMap =
        mapSet s.savedPositionsMap P ((descendantIds s.nodes P).map (fun d =>
          (d, ((posOf s.nodes d).1 - (posOf s.nodes P).1,
               (posOf s.nodes d).2 - (posOf s.nodes P).2)))) :=
      collapseBody_savedPositionsMap s P
    rw [Option.getD_some]
    have hs2nodes : (removeProjections
        ((descendantIds s.nodes P).foldl (showStep P) (collapseBody s P)) P).nodes =
        s.nodes := by
      rw [removeProjections_nodes, show_fold_nodes, hs1nodes]
    have hs2saved : List.lookup P (removeProjections
        ((descendantIds s.nodes P).foldl (showStep P) (collapseBody s P)) P).savedPositionsMap =
        some ((descendantIds s.nodes P).map (fun d =>
          (d, ((posOf s.nodes d).1 - (posOf s.nodes P).1,
               (posOf s.nodes d).2 - (posOf s.nodes P).2)))) := by
      rw [removeProjections_savedPositionsMap, show_fold_savedPositionsMap, hsP,
        lookup_mapSet]
      exact if_pos rfl
    rw [restoreLocalPositions_nodes_eq hs2saved]
    rw [hs2nodes]
    have hchldnd : ((childrenOf s.nodes P).map (fun n => n.id)).Nodup :=
      List.Nodup.sublist (List.Sublist.map (fun n => n.id)
        (List.filter_sublist s.nodes)) hnd
    have hex : ∀ q ∈ childrenOf s.nodes P,
        ∃ n2, getNode (removeProjections
          ((descendantIds s.nodes P).foldl (showStep P) (collapseBody s P)) P).nodes q.id =
          some n2 := by
      intro q hq
      rw [hs2nodes]
      exact ⟨q, getNode_self_of_nodup hnd (List.mem_filter.mp hq).1⟩
    have hcid : c.id ∈ descendantIds s.nodes P := child_mem_descendantIds hnd hcm
    have hlp : List.lookup c.id ((descendantIds s.nodes P).map (fun d =>
        (d, ((posOf s.nodes d).1 - (posOf s.nodes P).1,
             (posOf s.nodes d).2 - (posOf s.nodes P).2)))) =
        some ((posOf s.nodes c.id).1 - (posOf s.nodes P).1,
              (posOf s.nodes c.id).2 - (posOf s.nodes P).2) :=
      lookup_map_self (descendantIds s.nodes P) _ c.id hcid
    have hres := restore_fold_pos _ (posOf s.nodes P) (childrenOf s.nodes P) _
      hchldnd hex c hcm _ hlp
    rw [hres]
    have h1 : (posOf s.nodes P).1 +
        ((posOf s.nodes c.id).1 - (posOf s.nodes P).1) = (posOf s.nodes c.id).1 := by
      ring
    have h2 : (posOf s.nodes P).2 +
        ((posOf s.nodes c.id).2 - (posOf s.nodes P).2) = (posOf s.nodes c.id).2 := by
      ring
    rw [h1, h2]

/-- Witness for C1 on the round-trip graph: collapse(P); expand(P) leaves c1
and c2 visible and back at their original positions. -/
theorem claim1_round_trip_witness :
    Wellformed rt0 ∧ isParentNode rt0.nodes ("P") = true ∧ ("P") ∉ rt0.collapsedIds ∧
    (∀ d ∈ descendantIds rt0.nodes ("P"), d ∉ rt0.collapsedIds) ∧
    ((∀ d ∈ descendantIds rt0.nodes ("P"),
        isHiddenEle (expand (collapse rt0 ("P")).1 ("P")).1 d = false) ∧
     (∀ c ∈ childrenOf rt0.nodes ("P"),
        posOf (expand (collapse rt0 ("P")).1 ("P")).1.nodes c.id =
          posOf rt0.nodes c.id)) := by
  refine ⟨by decide, by decide, by decide, by decide, ?_⟩
  exact claim1_round_trip rt0 ("P") (by decide) (by decide) (by decide) (by decide)

/-! ### Structure preservation: descendant sets only depend on ids and parents -/

/-- Two node lists with the same ids and parent references in the same order
(they may differ in positions and dimensions). -/
def sameStruct (l1 l2 : List Node) : Prop :=
  l1.map (fun n => (n.id, n.parent)) = l2.map (fun n => (n.id, n.parent))

theorem sameStruct_refl (l : List Node) : sameStruct l l := rfl

theorem sameStruct_trans {l1 l2 l3 : List Node} (h1 : sameStruct l1 l2)
    (h2 : sameStruct l2 l3) : sameStruct l1 l3 := h1.trans h2

theorem sameStruct_map {l : List Node} {g : Node → Node}
    (hg : ∀ n, (g n).id = n.id ∧ (g n).parent = n.parent) :
    sameStruct (l.map g) l := by
  unfold sameStruct
  rw [List.map_map]
  refine List.map_congr_left (fun n _ => ?_)
  exact Prod.ext (hg n).1 (hg n).2

theorem sameStruct_length {l1 l2 : List Node} (h : sameStruct l1 l2) :
    l1.length = l2.length := by
  have := congrArg List.length h
  simpa using this

theorem sameStruct_parentOf {l1 l2 : List Node} (h : sameStruct l1 l2) (i : String) :
    (getNode l1 i).map (fun n => n.parent) = (getNode l2 i).map (fun n => n.parent) := by
  induction l1 generalizing l2 with
  | nil =>
    have : l2 = [] := by
      unfold sameStruct at h
      exact List.map_eq_nil_iff.mp h.symm
    subst this
    rfl
  | cons a t ih =>
    obtain ⟨b, t2, rfl⟩ : ∃ b t2, l2 = b :: t2 := by
      cases l2 with
      | nil => exact absurd h (by unfold sameStruct; simp)
      | cons b t2 => exact ⟨b, t2, rfl⟩
    unfold sameStruct at h
    rw [List.map_cons, List.map_cons] at h
    have hhead := List.head_eq_of_cons_eq h
    have htail := List.tail_eq_of_cons_eq h
    have hid : a.id = b.id := congrArg Prod.fst hhead
    have hpar : a.parent = b.parent := congrArg Prod.snd hhead
    unfold getNode
    rw [List.find?_cons, List.find?_cons, hid]
    cases hd : decide (b.id = i) with
    | true => simpa using hpar
    | false => exact ih htail

theorem sameStruct_ancestorChain {l1 l2 : List Node} (h : sameStruct l1 l2) :
    ∀ fuel x, ancestorChain l1 fuel x = ancestorChain l2 fuel x := by
  intro fuel
  induction fuel with
  | zero => intro x; rfl
  | succ k ih =>
    intro x
    have hpo := sameStruct_parentOf h x
    cases hg1 : getNode l1 x with
    | none =>
      rw [hg1] at hpo
      cases hg2 : getNode l2 x with
      | none => rw [ancestorChain_no_node k hg1, ancestorChain_no_node k hg2]
      | some n2 =>
        rw [hg2] at hpo
        exact absurd hpo (by simp)
    | some n1 =>
      rw [hg1] at hpo
      cases hg2 : getNode l2 x with
      | none =>
        rw [hg2] at hpo
        exact absurd hpo (by simp)
      | some n2 =>
        rw [hg2] at hpo
        have hpp : n1.parent = n2.parent := by simpa using hpo
        cases hp1 : n1.parent with
        | none =>
          rw [ancestorChain_none k hg1 hp1,
            ancestorChain_none k hg2 (hpp ▸ hp1)]
        | some p =>
          rw [ancestorChain_succ k hg1 hp1,
            ancestorChain_succ k hg2 (hpp ▸ hp1), ih p]

theorem sameStruct_descendantIds {l1 l2 : List Node} (h : sameStruct l1 l2)
    (pid : String) : descendantIds l1 pid = descendantIds l2 pid := by
  have hid : l1.map (fun n => n.id) = l2.map (fun n => n.id) := by
    have := congrArg (List.map Prod.fst) h
    simpa [List.map_map] using this
  have hfil : ∀ (l : List Node) (ψ : String → Bool),
      (l.filter (fun n => ψ n.id)).map (fun n => n.id) =
        (l.map (fun n => n.id)).filter ψ := by
    intro l ψ
    induction l with
    | nil => rfl
    | cons a t ih2 =>
      by_cases ha : ψ a.id = true
      · simp [List.filter_cons, ha, ih2]
      · have haf : ψ a.id = false := by
          cases hb : ψ a.id
          · rfl
          · exact absurd hb ha
        simp [List.filter_cons, haf, ih2]
  unfold descendantIds
  rw [show (fun (n : Node) => decide (pid ∈ ancestorChain l1 l1.length n.id)) =
      (fun (n : Node) => decide (pid ∈ ancestorChain l2 l2.length n.id)) from ?_]
  · rw [hfil l1 (fun i => decide (pid ∈ ancestorChain l2 l2.length i)),
      hfil l2 (fun i => decide (pid ∈ ancestorChain l2 l2.length i)), hid]
  · funext n
    rw [sameStruct_ancestorChain h, sameStruct_length h]

theorem sameStruct_setNodePos (s : CMState) (i : String) (p : Rat × Rat) :
    sameStruct (setNodePos s i p).nodes s.nodes := by
  refine sameStruct_map (fun n => ?_)
  by_cases h : n.id = i
  · rw [if_pos h]
    exact ⟨rfl, rfl⟩
  · rw [if_neg h]
    exact ⟨rfl, rfl⟩

theorem sameStruct_setAllPositions (s : CMState) (f : String → Option (Rat × Rat)) :
    sameStruct (setAllPositions s f).nodes s.nodes := by
  refine sameStruct_map (fun n => ?_)
  cases f n.id <;> exact ⟨rfl, rfl⟩

theorem sameStruct_separateNodes (s : CMState) (i1 i2 : String) (ov : Overlap)
    (padding : Rat) :
    sameStruct (separateNodes s i1 i2 ov padding).nodes s.nodes := by
  unfold separateNodes
  exact sameStruct_trans (sameStruct_setNodePos _ _ _) (sameStruct_setNodePos _ _ _)

theorem sameStruct_restoreStep (positions : List (String × (Rat × Rat))) (pp : Rat × Rat)
    (t : CMState) (c : Node) :
    sameStruct (restoreStep positions pp t c).nodes t.nodes := by
  unfold restoreStep
  cases List.lookup c.id positions with
  | none => exact sameStruct_refl _
  | some lp => exact sameStruct_setNodePos _ _ _

theorem sameStruct_state_fold {β : Type} (step : CMState → β → CMState)
    (h : ∀ t b, sameStruct (step t b).nodes t.nodes) (l : List β) (s : CMState) :
    sameStruct (l.foldl step s).nodes s.nodes := by
  induction l generalizing s with
  | nil => exact sameStruct_refl _
  | cons a t ih =>
    rw [List.foldl_cons]
    exact sameStruct_trans (ih (step s a)) (h s a)

theorem sameStruct_restoreLocalPositions (s : CMState) (n : String) :
    sameStruct (restoreLocalPositions s n).nodes s.nodes := by
  unfold restoreLocalPositions
  cases List.lookup n s.savedPositionsMap with
  | none => exact sameStruct_refl _
  | some positions =>
    exact sameStruct_state_fold _ (sameStruct_restoreStep positions _) _ s

theorem sameStruct_expandBody (t : CMState) (n : String) :
    sameStruct (expandBody t n).nodes t.nodes := by
  rw [expandBody_nodes]
  have h1 := sameStruct_restoreLocalPositions (removeProjections
    (((List.lookup n t.hiddenElementsMap).getD []).foldl (showStep n) t) n) n
  have h2 : (removeProjections
      (((List.lookup n t.hiddenElementsMap).getD []).foldl (showStep n) t) n).nodes =
      t.nodes := by
    rw [removeProjections_nodes, show_fold_nodes]
  rw [h2] at h1
  exact h1

theorem collapse_nodes (s : CMState) (n : String) : (collapse s n).1.nodes = s.nodes := by
  cases hp : isParentNode s.nodes n with
  | false => rw [collapse_not_parent s n hp]
  | true =>
    by_cases hc : n ∈ s.collapsedIds
    · rw [collapse_already s n hc]
    · rw [collapse_success s n hp hc]
      exact collapseBody_nodes s n

theorem sameStruct_passStep (padding : Rat) (acc : CMState × Bool) (pr : String × String) :
    sameStruct (passStep padding acc pr).1.nodes acc.1.nodes := by
  unfold passStep
  by_cases ha : ancestorRelated acc.1.nodes pr.1 pr.2 = true
  · rw [if_pos ha]
    exact sameStruct_refl _
  · rw [if_neg ha]
    cases overlapOf acc.1 pr.1 pr.2 with
    | none => exact sameStruct_refl _
    | some ov => exact sameStruct_separateNodes _ _ _ _ _

theorem sameStruct_pass_fold (padding : Rat) (l : List (String × String))
    (acc : CMState × Bool) :
    sameStruct ((l.foldl (passStep padding) acc)).1.nodes acc.1.nodes := by
  induction l generalizing acc with
  | nil => exact sameStruct_refl _
  | cons a t ih =>
    rw [List.foldl_cons]
    exact sameStruct_trans (ih _) (sameStruct_passStep padding acc a)

theorem sameStruct_onePass (s : CMState) (padding : Rat) :
    sameStruct (onePass s padding).1.nodes s.nodes :=
  sameStruct_pass_fold padding _ (s, false)

theorem sameStruct_resolveAux (padding : Rat) :
    ∀ fuel s, sameStruct (resolveAux padding fuel s).1.nodes s.nodes := by
  intro fuel
  induction fuel with
  | zero => exact fun s => sameStruct_refl _
  | succ k ih =>
    intro s
    unfold resolveAux
    by_cases h : (onePass s padding).2 = true
    · rw [if_pos h]
      exact sameStruct_trans (ih (onePass s padding).1) (sameStruct_onePass s padding)
    · rw [if_neg h]
      exact sameStruct_onePass s padding

theorem sameStruct_resolveOverlaps (s : CMState) (m : Nat) (p : Rat) :
    sameStruct (resolveOverlaps s m p).1.nodes s.nodes := by
  unfold resolveOverlaps
  by_cases h : (decide ((resolveAux p m s).2 ≥ m) && hasOverlaps (resolveAux p m s).1) = true
  · rw [if_pos h]
    exact sameStruct_resolveAux p m s
  · rw [if_neg h]
    exact sameStruct_resolveAux p m s

theorem show_fold_hiddenElementsMap (nodeId : String) (l : List String) (t : CMState) :
    (l.foldl (showStep nodeId) t).hiddenElementsMap = t.hiddenElementsMap :=
  foldl_proj (showStep nodeId) CMState.hiddenElementsMap
    (fun u d => showStep_hiddenElementsMap nodeId u d) l t

theorem expandBody_hiddenElementsMap (t : CMState) (n : String) :
    (expandBody t n).hiddenElementsMap = mapDel t.hiddenElementsMap n := by
  simp only [expandBody, emitEvent_hiddenElementsMap]
  rw [restoreLocalPositions_hiddenElementsMap, removeProjections_hiddenElementsMap,
    show_fold_hiddenElementsMap]

theorem restoreLocalPositions_savedPositionsMap_lookup (t : CMState) (n p : String) :
    List.lookup p (restoreLocalPositions t n).savedPositionsMap =
      if p = n then none else List.lookup p t.savedPositionsMap := by
  unfold restoreLocalPositions
  cases hl : List.lookup n t.savedPositionsMap with
  | none =>
    by_cases hp : p = n
    · rw [if_pos hp, hp]
      exact hl
    · rw [if_neg hp]
  | some positions =>
    have hfold : ((childrenOf t.nodes n).foldl (restoreStep positions
        (posOf t.nodes n)) t).savedPositionsMap = t.savedPositionsMap :=
      restore_fold_proj positions _ CMState.savedPositionsMap (fun _ _ _ => rfl) _ _
    simp only
    rw [lookup_mapDel, hfold]

theorem expandBody_savedPositionsMap_lookup (t : CMState) (n p : String) :
    List.lookup p (expandBody t n).savedPositionsMap =
      if p = n then none else List.lookup p t.savedPositionsMap := by
  have h1 : (expandBody t n).savedPositionsMap =
      (restoreLocalPositions (removeProjections
        (((List.lookup n t.hiddenElementsMap).getD []).foldl (showStep n) t) n)
        n).savedPositionsMap := rfl
  rw [h1, restoreLocalPositions_savedPositionsMap_lookup, removeProjections_savedPositionsMap,
    show_fold_savedPositionsMap]

theorem separateNodes_hiddenElementsMap (s : CMState) (i1 i2 : String) (ov : Overlap)
    (padding : Rat) :
    (separateNodes s i1 i2 ov padding).hiddenElementsMap = s.hiddenElementsMap := rfl

theorem separateNodes_savedPositionsMap (s : CMState) (i1 i2 : String) (ov : Overlap)
    (padding : Rat) :
    (separateNodes s i1 i2 ov padding).savedPositionsMap = s.savedPositionsMap := rfl

theorem passStep_hiddenElementsMap (padding : Rat) (acc : CMState × Bool)
    (pr : String × String) :
    (passStep padding acc pr).1.hiddenElementsMap = acc.1.hiddenElementsMap := by
  unfold passStep
  by_cases ha : ancestorRelated acc.1.nodes pr.1 pr.2 = true
  · rw [if_pos ha]
  · rw [if_neg ha]
    cases overlapOf acc.1 pr.1 pr.2 <;> rfl

theorem passStep_savedPositionsMap (padding : Rat) (acc : CMState × Bool)
    (pr : String × String) :
    (passStep padding acc pr).1.savedPositionsMap = acc.1.savedPositionsMap := by
  unfold passStep
  by_cases ha : ancestorRelated acc.1.nodes pr.1 pr.2 = true
  · rw [if_pos ha]
  · rw [if_neg ha]
    cases overlapOf acc.1 pr.1 pr.2 <;> rfl

theorem resolveAux_hiddenElementsMap (padding : Rat) :
    ∀ fuel s, (resolveAux padding fuel s).1.hiddenElementsMap = s.hiddenElementsMap := by
  intro fuel
  induction fuel with
  | zero => exact fun s => rfl
  | succ k ih =>
    intro s
    have hone : (onePass s padding).1.hiddenElementsMap = s.hiddenElementsMap :=
      foldl_proj (passStep padding) (fun acc => acc.1.hiddenElementsMap)
        (fun acc pr => passStep_hiddenElementsMap padding acc pr) _ (s, false)
    unfold resolveAux
    by_cases h : (onePass s padding).2 = true
    · rw [if_pos h]
      simp only
      rw [ih (onePass s padding).1, hone]
    · rw [if_neg h]
      exact hone

theorem resolveAux_savedPositionsMap (padding : Rat) :
    ∀ fuel s, (resolveAux padding fuel s).1.savedPositionsMap = s.savedPositionsMap := by
  intro fuel
  induction fuel with
  | zero => exact fun s => rfl
  | succ k ih =>
    intro s
    have hone : (onePass s padding).1.savedPositionsMap = s.savedPositionsMap :=
      foldl_proj (passStep padding) (fun acc => acc.1.savedPositionsMap)
        (fun acc pr => passStep_savedPositionsMap padding acc pr) _ (s, false)
    unfold resolveAux
    by_cases h : (onePass s padding).2 = true
    · rw [if_pos h]
      simp only
      rw [ih (onePass s padding).1, hone]
    · rw [if_neg h]
      exact hone

theorem resolveOverlaps_hiddenElementsMap (s : CMState) (m : Nat) (p : Rat) :
    (resolveOverlaps s m p).1.hiddenElementsMap = s.hiddenElementsMap := by
  unfold resolveOverlaps
  by_cases h : (decide ((resolveAux p m s).2 ≥ m) && hasOverlaps (resolveAux p m s).1) = true
  · rw [if_pos h]
    exact resolveAux_hiddenElementsMap p m s
  · rw [if_neg h]
    exact resolveAux_hiddenElementsMap p m s

theorem resolveOverlaps_savedPositionsMap (s : CMState) (m : Nat) (p : Rat) :
    (resolveOverlaps s m p).1.savedPositionsMap = s.savedPositionsMap := by
  unfold resolveOverlaps
  by_cases h : (decide ((resolveAux p m s).2 ≥ m) && hasOverlaps (resolveAux p m s).1) = true
  · rw [if_pos h]
    exact resolveAux_savedPositionsMap p m s
  · rw [if_neg h]
    exact resolveAux_savedPositionsMap p m s

/-! ### Reachable engine states and the record invariant (C9) -/

/-- Engine states reachable from a fresh attachment to a graph, through the
operations that the public API can perform: collapse, expand, overlap
resolution, arbitrary repositioning by the delegated layout capability, and
event emission. -/
inductive Reachable (nodes0 : List Node) (edges0 : List Edge) : CMState → Prop where
  | init : Reachable nodes0 edges0 (initState nodes0 edges0)
  | collapseStep (s : CMState) (n : String) :
      Reachable nodes0 edges0 s → Reachable nodes0 edges0 (collapse s n).1
  | expandStep (s : CMState) (n : String) :
      Reachable nodes0 edges0 s → Reachable nodes0 edges0 (expand s n).1
  | layoutStep (s : CMState) (f : String → Option (Rat × Rat)) :
      Reachable nodes0 edges0 s → Reachable nodes0 edges0 (setAllPositions s f)
  | resolveStep (s : CMState) (m : Nat) (p : Rat) :
      Reachable nodes0 edges0 s → Reachable nodes0 edges0 (resolveOverlaps s m p).1
  | emitStep (s : CMState) (e : String) :
      Reachable nodes0 edges0 s → Reachable nodes0 edges0 (emitEvent s e)

/-- Every stored per-node record (hidden-descendant ids, saved-position keys)
is exactly the descendant id set of its node. -/
def RecordsInv (s : CMState) : Prop :=
  (∀ p r, List.lookup p s.hiddenElementsMap = some r → r = descendantIds s.nodes p) ∧
  (∀ p m, List.lookup p s.savedPositionsMap = some m →
    m.map (fun q => q.1) = descendantIds s.nodes p)

theorem reachable_recordsInv {nodes0 : List Node} {edges0 : List Edge} {s : CMState}
    (hr : Reachable nodes0 edges0 s) : RecordsInv s := by
  induction hr with
  | init =>
    constructor
    · intro p r h
      exact absurd h (by simp [initState, List.lookup])
    · intro p m h
      exact absurd h (by simp [initState, List.lookup])
  | collapseStep s n hprev ih =>
    cases hp : isParentNode s.nodes n with
    | false =>
      rw [collapse_not_parent s n hp]
      exact ih
    | true =>
      by_cases hc : n ∈ s.collapsedIds
      · rw [collapse_already s n hc]
        exact ih
      · rw [collapse_success s n hp hc]
        constructor
        · intro p r h
          rw [collapseBody_hiddenElementsMap, lookup_mapSet] at h
          rw [collapseBody_nodes]
          by_cases hpn : p = n
          · rw [if_pos hpn] at h
            cases h
            rw [hpn]
          · rw [if_neg hpn] at h
            exact ih.1 p r h
        · intro p m h
          rw [collapseBody_savedPositionsMap, lookup_mapSet] at h
          rw [collapseBody_nodes]
          by_cases hpn : p = n
          · rw [if_pos hpn] at h
            cases h
            rw [hpn, List.map_map]
            exact List.map_congr_left (fun d _ => rfl) |>.trans (List.map_id _)
          · rw [if_neg hpn] at h
            exact ih.2 p m h
  | expandStep s n hprev ih =>
    by_cases hc : n ∈ s.collapsedIds
    · rw [expand_success s n hc]
      have hds : ∀ p, descendantIds (expandBody s n).nodes p = descendantIds s.nodes p :=
        fun p => sameStruct_descendantIds (sameStruct_expandBody s n) p
      constructor
      · intro p r h
        rw [expandBody_hiddenElementsMap, lookup_mapDel] at h
        by_cases hpn : p = n
        · rw [if_pos hpn] at h
          exact absurd h (by simp)
        · rw [if_neg hpn] at h
          rw [hds]
          exact ih.1 p r h
      · intro p m h
        rw [expandBody_savedPositionsMap_lookup] at h
        by_cases hpn : p = n
        · rw [if_pos hpn] at h
          exact absurd h (by simp)
        · rw [if_neg hpn] at h
          rw [hds]
          exact ih.2 p m h
    · rw [expand_not_collapsed s n hc]
      exact ih
  | layoutStep s f hprev ih =>
    have hds : ∀ p, descendantIds (setAllPositions s f).nodes p = descendantIds s.nodes p :=
      fun p => sameStruct_descendantIds (sameStruct_setAllPositions s f) p
    constructor
    · intro p r h
      rw [hds]
      exact ih.1 p r h
    · intro p m h
      rw [hds]
      exact ih.2 p m h
  | resolveStep s m p hprev ih =>
    have hds : ∀ q, descendantIds (resolveOverlaps s m p).1.nodes q =
        descendantIds s.nodes q :=
      fun q => sameStruct_descendantIds (sameStruct_resolveOverlaps s m p) q
    constructor
    · intro q r h
      rw [resolveOverlaps_hiddenElementsMap] at h
      rw [hds]
      exact ih.1 q r h
    · intro q mm h
      rw [resolveOverlaps_savedPositionsMap] at h
      rw [hds]
      exact ih.2 q mm h
  | emitStep s e hprev ih =>
    constructor
    · intro p r h
      exact ih.1 p r h
    · intro p m h
      exact ih.2 p m h

/-- Two ancestors of the same node are comparable: equal, or one is an
ancestor of the other. -/
theorem ancestorChain_comparable (nodes : List Node) :
    ∀ fuel x p q, p ∈ ancestorChain nodes fuel x → q ∈ ancestorChain nodes fuel x →
      p = q ∨ p ∈ ancestorChain nodes fuel q ∨ q ∈ ancestorChain nodes fuel p := by
  intro fuel
  induction fuel with
  | zero => intro x p q hp _; exact absurd hp (List.not_mem_nil p)
  | succ k ih =>
    intro x p q hp hq
    cases hg : getNode nodes x with
    | none =>
      rw [ancestorChain_no_node k hg] at hp
      exact absurd hp (List.not_mem_nil p)
    | some n =>
      cases hpar : n.parent with
      | none =>
        rw [ancestorChain_none k hg hpar] at hp
        exact absurd hp (List.not_mem_nil p)
      | some r =>
        rw [ancestorChain_succ k hg hpar] at hp hq
        cases List.mem_cons.mp hp with
        | inl hpr =>
          cases List.mem_cons.mp hq with
          | inl hqr => exact Or.inl (hpr.trans hqr.symm)
          | inr hqc =>
            refine Or.inr (Or.inr ?_)
            rw [hpr]
            exact ancestorChain_mono nodes k (k + 1) (by omega) r q hqc
        | inr hpc =>
          cases List.mem_cons.mp hq with
          | inl hqr =>
            refine Or.inr (Or.inl ?_)
            rw [hqr]
            exact ancestorChain_mono nodes k (k + 1) (by omega) r p hpc
          | inr hqc =>
            rcases ih r p q hpc hqc with he | hl | hrr
            · exact Or.inl he
            · exact Or.inr (Or.inl (ancestorChain_mono nodes k (k + 1) (by omega) q p hl))
            · exact Or.inr (Or.inr (ancestorChain_mono nodes k (k + 1) (by omega) p q hrr))

/-- Claim C9 (amended): at every reachable engine state, the collapse records
(hidden-descendant id lists and saved-position key sets) of two different
collapsed nodes, neither of which is an ancestor of the other, are disjoint.
Records of a collapsed node and a collapsed ancestor of it may overlap — the
ancestor's record stores its entire descendant set, as the counterexample
shows — so disjointness holds exactly for ancestry-unrelated pairs. -/
theorem claim9_records_disjoint_nonancestor (nodes0 : List Node) (edges0 : List Edge)
    (s : CMState) (p q : String) (rp rq : List String)
    (hr : Reachable nodes0 edges0 s)
    (hpc : p ∈ s.collapsedIds) (hqc : q ∈ s.collapsedIds)
    (hne : p ≠ q)
    (hpq : p ∉ ancestorChain s.nodes s.nodes.length q)
    (hqp : q ∉ ancestorChain s.nodes s.nodes.length p)
    (hrp : List.lookup p s.hiddenElementsMap = some rp)
    (hrq : List.lookup q s.hiddenElementsMap = some rq) :
    (∀ x ∈ rp, x ∉ rq) ∧
    (∀ mp mq, List.lookup p s.savedPositionsMap = some mp →
      List.lookup q s.savedPositionsMap = some mq →
      ∀ x ∈ mp.map (fun e => e.1), x ∉ mq.map (fun e => e.1)) := by
  have hinv := reachable_recordsInv hr
  have hp1 : rp = descendantIds s.nodes p := hinv.1 p rp hrp
  have hq1 : rq = descendantIds s.nodes q := hinv.1 q rq hrq
  have hdisj : ∀ x, x ∈ descendantIds s.nodes p → x ∈ descendantIds s.nodes q → False := by
    intro x hx1 hx2
    obtain ⟨n1, hn1, hid1, hc1⟩ := mem_descendantIds.mp hx1
    obtain ⟨n2, hn2, hid2, hc2⟩ := mem_descendantIds.mp hx2
    rcases ancestorChain_comparable s.nodes s.nodes.length x p q hc1 hc2 with he | hl | hrr
    · exact hne he
    · exact hpq hl
    · exact hqp hrr
  constructor
  · intro x hx
    rw [hp1] at hx
    rw [hq1]
    exact fun hx2 => hdisj x hx hx2
  · intro mp mq hmp hmq x hx
    have hp2 := hinv.2 p mp hmp
    have hq2 := hinv.2 q mq hmq
    rw [hp2] at hx
    rw [hq2]
    exact fun hx2 => hdisj x hx hx2

/-- Two unrelated compounds, each with one child. -/
def twoNodes : List Node :=
  [exN ("p1") none 0 0, exN ("u") (some ("p1")) 1 1,
   exN ("p2") none 2 2, exN ("v") (some ("p2")) 3 3]

def two2 : CMState := (collapse ((collapse (initState twoNodes []) ("p1")).1) ("p2")).1

/-- Witness for the amended C9: after collapsing the unrelated compounds p1
and p2, their records ([u] and [v]) are disjoint. -/
theorem claim9_records_disjoint_witness :
    ("p1") ∈ two2.collapsedIds ∧ ("p2") ∈ two2.collapsedIds ∧
    List.lookup ("p1") two2.hiddenElementsMap = some (["u"]) ∧
    List.lookup ("p2") two2.hiddenElementsMap = some (["v"]) ∧
    (∀ x ∈ (["u"] : List String), x ∉ (["v"] : List String)) := by
  refine ⟨by decide, by decide, by decide, by decide, ?_⟩
  exact (claim9_records_disjoint_nonancestor twoNodes [] two2 ("p1") ("p2") (["u"]) (["v"])
    (Reachable.collapseStep _ ("p2") (Reachable.collapseStep _ ("p1") Reachable.init))
    (by decide) (by decide) (by decide) (by decide) (by decide) (by decide) (by decide)).1
